import Mathlib

/-!
Verification of the chunking / indexing / hybrid-retrieval core of the
semantic-search-mcp repository (src/search.ts, src/vectordb.ts).

Strings are modelled as `List Char`; scores as exact rationals `ℚ`
(idealising IEEE floats); the external collaborators (Node `path.resolve`,
the embedding provider, the file system, the LanceDB vector store) are
modelled as explicit parameters / explicit state, mirroring the control
flow of the TypeScript source.
-/

namespace SemanticSearchMCP

set_option maxRecDepth 1000000

/-! ### JS string primitives used by search.ts

`isWS` models the JavaScript `\s` character class (as used by the regexes
`/\n\s*\n/` and `/\s+/`, by `String.prototype.trim`, and as whitespace in
general): ASCII whitespace plus the Unicode space separators.  -/

def isWS (c : Char) : Bool :=
  c = ' ' || c = '\t' || c = '\n' || c = '\r' ||
  c = '\x0b' || c = '\x0c' || c = ' ' || c = ' ' ||
  (0x2000 ≤ c.toNat && c.toNat ≤ 0x200A) ||
  c = ' ' || c = ' ' || c = ' ' || c = ' ' ||
  c = '　' || c = '﻿'

/-- Drop the maximal whitespace prefix (one half of `String.prototype.trim`). -/
def trimLeft : List Char → List Char
  | [] => []
  | c :: cs => if isWS c then trimLeft cs else c :: cs

/-- Drop the maximal whitespace suffix. -/
def trimRight (l : List Char) : List Char :=
  (trimLeft l.reverse).reverse

/-- Model of `String.prototype.trim`. -/
def trim (l : List Char) : List Char :=
  trimRight (trimLeft l)

/-- Model of `s.split('\n').length`: number of lines of a (non-empty) string. -/
def countLines (l : List Char) : Nat :=
  l.count '\n' + 1

/-- Helper for the regex `/\n\s*\n/` (with greedy, backtracking `\s*`):
given the text `cs` that follows an initial `'\n'`, return `some k` when
the first `k` characters of `cs` are whitespace and the `k`-th character
(1-based) is the last `'\n'` inside the maximal whitespace prefix of `cs`;
`none` when that whitespace prefix contains no newline.  `k` is exactly the
number of characters the regex engine consumes after the initial `'\n'`. -/
def lastNLinWS : List Char → Option Nat
  | [] => none
  | c :: cs =>
    if isWS c then
      match lastNLinWS cs with
      | some k => some (k + 1)
      | none => if c = '\n' then some 1 else none
    else none

/-- Scanner for `content.split(/\n\s*\n/)`; `acc` is the current piece,
reversed.  A separator match starts at a `'\n'` whose following maximal
whitespace run contains another `'\n'`; the match extends to the last such
`'\n'` (greedy `\s*` with backtracking into the final `\n`).  The scanner
consumes at least one character per step, so `fuel := s.length` makes the
recursion structural without ever hitting the fuel-exhaustion branch. -/
def splitGo (fuel : Nat) (acc : List Char) (s : List Char) : List (List Char) :=
  match fuel, s with
  | _, [] => [acc.reverse]
  | 0, _ :: _ => [acc.reverse]
  | fuel + 1, c :: cs =>
    if c = '\n' then
      match lastNLinWS cs with
      | some k => acc.reverse :: splitGo fuel [] (cs.drop k)
      | none => splitGo fuel (c :: acc) cs
    else splitGo fuel (c :: acc) cs

/-- Model of `content.split(/\n\s*\n/)` from `chunkDocument`. -/
def splitParas (s : List Char) : List (List Char) :=
  splitGo s.length [] s

/-! ### The chunker (`chunkDocument` in src/search.ts) -/

/-- A document chunk as produced by `createChunk` (src/search.ts).
The sha256-derived `id` and the `indexed_at` timestamp are not modelled
(no claim mentions them); `file_path` keeps the normalized path,
`char_count` the length of the text handed to `createChunk` (before its
internal trim), exactly as in the source. -/
structure Chunk where
  text : List Char
  file_path : String
  line_start : Nat
  line_end : Nat
  chunk_index : Nat
  char_count : Nat
deriving Repr, DecidableEq

def maxChunkSize : Nat := 1000

def minChunkSize : Nat := 200

/-- Model of `createChunk`; `resolve` models Node's `path.resolve`. -/
def createChunk (resolve : String → String) (text : List Char) (filePath : String)
    (lineStart lineEnd chunkIndex : Nat) : Chunk :=
  { text := trim text
    file_path := resolve filePath
    line_start := lineStart
    line_end := lineEnd
    chunk_index := chunkIndex
    char_count := text.length }

/-- The mutable locals of the `for` loop in `chunkDocument`. -/
structure ChunkState where
  chunks : List Chunk
  currentChunk : List Char
  currentLineStart : Nat
  currentLineCount : Nat
  chunkIndex : Nat
deriving Repr, DecidableEq

def initChunkState : ChunkState :=
  { chunks := []
    currentChunk := []
    currentLineStart := 1
    currentLineCount := 0
    chunkIndex := 0 }

/-- One iteration of the paragraph loop of `chunkDocument`. -/
def stepPara (resolve : String → String) (filePath : String)
    (st : ChunkState) (paragraph : List Char) : ChunkState :=
  let trimmedPara := trim paragraph
  if trimmedPara.isEmpty then st
  else
    let paraLineCount := countLines trimmedPara
    if 0 < st.currentChunk.length ∧
        maxChunkSize < st.currentChunk.length + trimmedPara.length ∧
        minChunkSize ≤ st.currentChunk.length then
      { chunks := st.chunks ++ [createChunk resolve st.currentChunk filePath
          st.currentLineStart (st.currentLineStart + st.currentLineCount - 1) st.chunkIndex]
        currentChunk := trimmedPara
        currentLineStart := st.currentLineStart + st.currentLineCount
        currentLineCount := paraLineCount
        chunkIndex := st.chunkIndex + 1 }
    else
      { st with
        currentChunk :=
          if 0 < st.currentChunk.length then
            st.currentChunk ++ ('\n' :: '\n' :: trimmedPara)
          else trimmedPara
        currentLineCount := st.currentLineCount + paraLineCount }

/-- The paragraph loop of `chunkDocument`. -/
def chunkLoop (resolve : String → String) (filePath : String) :
    ChunkState → List (List Char) → ChunkState
  | st, [] => st
  | st, p :: ps => chunkLoop resolve filePath (stepPara resolve filePath st p) ps

/-- The trailing `// Add final chunk` block of `chunkDocument`. -/
def finalFlush (resolve : String → String) (filePath : String) (st : ChunkState) : List Chunk :=
  if minChunkSize ≤ st.currentChunk.length ∨ st.chunks.length = 0 then
    st.chunks ++ [createChunk resolve st.currentChunk filePath
      st.currentLineStart (st.currentLineStart + st.currentLineCount - 1) st.chunkIndex]
  else st.chunks

/-- Model of `chunkDocument(content, filePath)` (src/search.ts). -/
def chunkDocument (resolve : String → String) (content : List Char) (filePath : String) :
    List Chunk :=
  finalFlush resolve filePath
    (chunkLoop resolve filePath initChunkState (splitParas content))

/-! ### The vector store adapter (`VectorDatabase` in src/vectordb.ts)

The LanceDB table is modelled as `Option (List Row)`: `none` while the
table does not exist yet (it is created by the first insert), `some rows`
afterwards.  The embedding provider is a parameter `embed`; whether a
batch-embedding call succeeds is a parameter `embedOk` (the provider is an
external collaborator).  Whether the underlying `table.delete` call throws
is the parameter `delFail` of `deleteFileChunks`. -/

/-- A stored row: the chunk's scalar columns plus its embedding vector. -/
structure Row where
  chunk : Chunk
  embedding : List ℚ
deriving Repr, DecidableEq

/-- The database state: `none` = table not created yet. -/
structure VectorDB where
  table : Option (List Row)
deriving Repr, DecidableEq

/-- The rows currently stored (empty when no table exists). -/
def tableRows (st : VectorDB) : List Row :=
  st.table.getD []

/-- Model of `VectorDatabase.deleteFileChunks` (src/vectordb.ts:124-143).
Returns the new state and the returned number: `0` when no table exists;
on an underlying `table.delete` failure (`delFail = true`) the error is
caught and `0` is returned (the state is left as observed before the
call); otherwise every row whose `file_path` equals the resolved path is
removed and `1` is returned.  The function is total: it never raises. -/
def deleteFileChunks (resolve : String → String) (st : VectorDB)
    (filePath : String) (delFail : Bool) : VectorDB × Nat :=
  match st.table with
  | none => (st, 0)
  | some rows =>
    if delFail then (st, 0)
    else (⟨some (rows.filter fun r => r.chunk.file_path ≠ resolve filePath)⟩, 1)

/-- Model of `VectorDatabase.addChunks`: embed all chunk texts in one
batch call (all-or-nothing: if the batch fails the whole call throws and
nothing is written), then create the table from the rows or append to it. -/
def addChunks (embed : List Char → List ℚ) (embedOk : List (List Char) → Bool)
    (st : VectorDB) (chunks : List Chunk) : Except String VectorDB :=
  if chunks.length = 0 then .ok st
  else if ¬ embedOk (chunks.map Chunk.text) then .error "Failed to add chunks"
  else
    let rows := chunks.map fun c => Row.mk c (embed c.text)
    match st.table with
    | none => .ok ⟨some rows⟩
    | some t => .ok ⟨some (t ++ rows)⟩

/-! ### The indexer (`indexFile`, `indexDirectory` in src/search.ts) -/

/-- Model of `indexFile` (src/search.ts:114-139).  `readResult` models
`fs.readFile` (an external collaborator): `.error` when the read throws.
The returned pair is (database state after the call, outcome): the state
is returned even on a thrown error because the real function mutates the
shared database before it can throw (delete-then-insert is not atomic). -/
def indexFile (resolve : String → String) (embed : List Char → List ℚ)
    (embedOk : List (List Char) → Bool) (st : VectorDB) (filePath : String)
    (readResult : Except String (List Char)) (delFail : Bool) :
    VectorDB × Except String Nat :=
  match readResult with
  | .error _ => (st, .error "Failed to index")
  | .ok content =>
    let st1 := (deleteFileChunks resolve st filePath delFail).1
    let chunks := chunkDocument resolve content filePath
    if chunks.length = 0 then (st1, .ok 0)
    else
      match addChunks embed embedOk st1 chunks with
      | .error _ => (st1, .error "Failed to index")
      | .ok st2 => (st2, .ok chunks.length)

/-- The `for` loop of `indexDirectory` (src/search.ts:166-175): index each
file in turn; on success add its chunk count to `indexed`, on a thrown
error push the file onto `failed` and continue with the remaining files. -/
def indexDirGo (resolve : String → String) (embed : List Char → List ℚ)
    (embedOk : List (List Char) → Bool) (read : String → Except String (List Char))
    (delFail : String → Bool) :
    VectorDB → List String → Nat → List String → VectorDB × Nat × List String
  | st, [], indexed, failed => (st, indexed, failed)
  | st, f :: fs, indexed, failed =>
    match indexFile resolve embed embedOk st f (read f) (delFail f) with
    | (st1, .ok n) => indexDirGo resolve embed embedOk read delFail st1 fs (indexed + n) failed
    | (st1, .error _) => indexDirGo resolve embed embedOk read delFail st1 fs indexed (failed ++ [f])

/-- Model of `indexDirectory` (src/search.ts:144-181).  The glob
enumeration is external; `files` is the list it returned. -/
def indexDirectory (resolve : String → String) (embed : List Char → List ℚ)
    (embedOk : List (List Char) → Bool) (read : String → Except String (List Char))
    (delFail : String → Bool) (st : VectorDB) (files : List String) :
    VectorDB × Nat × List String :=
  indexDirGo resolve embed embedOk read delFail st files 0 []

/-! ### The retriever (`VectorDatabase.search`, `hybridSearch`) -/

/-- A raw row coming back from the LanceDB vector query: the stored
columns plus the `_distance` field (absent ⇒ treated as `0` by the
adapter's `result._distance || 0`). -/
structure RawRow where
  chunk : Chunk
  dist : Option ℚ
deriving Repr, DecidableEq

/-- A search result as assembled by `VectorDatabase.search`. -/
structure SearchResult where
  chunk : Chunk
  score : ℚ
  distance : ℚ
deriving Repr, DecidableEq

/-- The result-transformation step of `VectorDatabase.search`
(src/vectordb.ts:178-196): `score = 1 - (result._distance || 0)`,
`distance = result._distance || 0`.  The nearest-neighbour query itself is
external; `raw` is the row list it returned. -/
def vectorDbSearch (raw : List RawRow) : List SearchResult :=
  raw.map fun r => ⟨r.chunk, 1 - r.dist.getD 0, r.dist.getD 0⟩

/-- Model of `text.includes(needle)`: does `needle` occur as a prefix of
`hay`? -/
def startsWith : List Char → List Char → Bool
  | _, [] => true
  | [], _ :: _ => false
  | c :: cs, d :: ds => c = d && startsWith cs ds

/-- Model of `hay.includes(needle)` (literal substring containment). -/
def containsSub : List Char → List Char → Bool
  | [], needle => needle.isEmpty
  | c :: cs, needle => startsWith (c :: cs) needle || containsSub cs needle

/-- Scanner for `query.split(/\s+/)`; `acc` is the current piece, reversed.
As with `splitGo`, every step consumes at least one character, so
`fuel := s.length` makes the recursion structural and complete. -/
def splitWSGo (fuel : Nat) (acc : List Char) (s : List Char) : List (List Char) :=
  match fuel, s with
  | _, [] => [acc.reverse]
  | 0, _ :: _ => [acc.reverse]
  | fuel + 1, c :: cs =>
    if isWS c then acc.reverse :: splitWSGo fuel [] (cs.dropWhile isWS)
    else splitWSGo fuel (c :: acc) cs

/-- The keyword extraction of `hybridSearch`:
`query.toLowerCase().split(/\s+/).filter(word => word.length > 3)`.
(`Char.toLower` models the ASCII part of JS `toLowerCase`.) -/
def keywordsOf (query : List Char) : List (List Char) :=
  (splitWSGo (query.map Char.toLower).length [] (query.map Char.toLower)).filter
    fun w => 3 < w.length

/-- Number of extracted keywords (with multiplicity — the source does not
deduplicate them) occurring literally in the lowercased text. -/
def keywordMatches (query text : List Char) : Nat :=
  (keywordsOf query).countP fun kw => containsSub (text.map Char.toLower) kw

/-- The per-result boosting step of `hybridSearch`: each matching keyword
adds `0.2`, and the sum is capped at `1.0`. -/
def boostResult (query : List Char) (r : SearchResult) : SearchResult :=
  { r with score := min (r.score + (1 / 5 : ℚ) * keywordMatches query r.chunk.text) 1 }

/-- The comparator `(a, b) => b.score - a.score` passed to the (stable,
per ES2019) `Array.prototype.sort`: `a` may stay before or move in front
of `b` iff `b.score ≤ a.score`. -/
def scoreDesc (a b : SearchResult) : Prop :=
  b.score ≤ a.score

instance : DecidableRel scoreDesc :=
  fun a b => inferInstanceAs (Decidable (b.score ≤ a.score))

instance : IsTotal SearchResult scoreDesc :=
  ⟨fun a b => le_total b.score a.score⟩

instance : IsTrans SearchResult scoreDesc :=
  ⟨fun _ _ _ hab hbc => le_trans hbc hab⟩

/-- Model of `hybridSearch(query, limit, enableHybrid)`
(src/search.ts:235-276).  The semantic candidates are the store's answer
to a `limit * 2` nearest-neighbour query; that query is external, so the
raw rows it returned are the parameter `raw`.  The stable descending sort
`boostedResults.sort((a, b) => b.score - a.score)` is modelled by a stable
sort with respect to `scoreDesc` (all stable sorts under a total preorder
comparator produce the same list). -/
def hybridSearch (raw : List RawRow) (query : List Char) (limit : Nat)
    (enableHybrid : Bool) : List SearchResult :=
  let semanticResults := vectorDbSearch raw
  if ¬ enableHybrid then semanticResults.take limit
  else
    let boostedResults := semanticResults.map (boostResult query)
    (List.insertionSort scoreDesc boostedResults).take limit

/-- "Tight" strings: non-empty and fixed by `trim` (the loop buffer of
`chunkDocument` is always of this shape). -/
def Tight (l : List Char) : Prop :=
  trim l = l ∧ l ≠ []

/-- The non-empty trimmed paragraphs of a document — the units the
paragraph loop of `chunkDocument` actually accumulates. -/
def trimmedParas (content : List Char) : List (List Char) :=
  ((splitParas content).map trim).filter fun p => !p.isEmpty

/-! ### The loop invariant of `chunkDocument`

`joinBuf` reconstructs the loop buffer from the list of paragraphs it
accumulated (they are joined by the `'\n\n'` separator); `LineChainFrom`
expresses the line bookkeeping: the chunk list is a chain of adjacent
line ranges starting at line 1, ending at the current `currentLineStart`. -/

def sep2 : List Char := ['\n', '\n']

def joinBuf : List (List Char) → List Char
  | [] => []
  | [p] => p
  | p :: q :: ps => p ++ sep2 ++ joinBuf (q :: ps)

def lineSum (g : List (List Char)) : Nat :=
  (g.map countLines).sum

def LineChainFrom : Nat → List Chunk → Nat → Prop
  | s, [], n => n = s
  | s, c :: cs, n => c.line_start = s ∧ LineChainFrom (c.line_end + 1) cs n

/-- The relation between a chunk and the ghost list of paragraphs it was
accumulated from. -/
def GC (g : List (List Char)) (c : Chunk) : Prop :=
  g ≠ [] ∧ (∀ p ∈ g, Tight p) ∧ c.text = joinBuf g ∧
  c.line_end + 1 = c.line_start + lineSum g ∧ 1 ≤ c.line_start

/-- The invariant of the paragraph loop of `chunkDocument`: `T` is the
list of non-empty trimmed paragraphs consumed so far; it decomposes into
the per-chunk ghost groups followed by the paragraphs of the current
buffer. -/
def Inv (T : List (List Char)) (st : ChunkState) : Prop :=
  ∃ groups buf,
    T = groups.flatten ++ buf ∧
    List.Forall₂ GC groups st.chunks ∧
    (∀ p ∈ buf, Tight p) ∧
    st.currentChunk = joinBuf buf ∧
    st.currentLineCount = lineSum buf ∧
    LineChainFrom 1 st.chunks st.currentLineStart

/-- The contribution of one raw paragraph to the consumed trimmed list. -/
def tnp1 (p : List Char) : List (List Char) :=
  if (trim p).isEmpty then [] else [trim p]

def tnpList (ps : List (List Char)) : List (List Char) :=
  (ps.map trim).filter fun q => !q.isEmpty

/-! ### The size bound of `chunkDocument` -/

/-- Invariant for the chunk-size bound: `M` bounds the trimmed paragraph
lengths, and both the emitted chunks and the running buffer stay below
`maxChunkSize + 2 + M` (the `+ 2` is the `'\n\n'` join separator, which
the overflow test of the source does not count). -/
def SizeInv (M : Nat) (st : ChunkState) : Prop :=
  (∀ c ∈ st.chunks, c.text.length ≤ maxChunkSize + 2 + M) ∧
  st.currentChunk.length ≤ maxChunkSize + 2 + M

/-- The rows of `st` whose `file_path` column equals `p`. -/
def rowsFor (st : VectorDB) (p : String) : List Row :=
  (tableRows st).filter fun r => r.chunk.file_path = p

/-- The rows a successful `indexFile` run inserts for a document. -/
def chunkRows (resolve : String → String) (embed : List Char → List ℚ)
    (content : List Char) (fp : String) : List Row :=
  (chunkDocument resolve content fp).map fun c => Row.mk c (embed c.text)

/-- Whether `indexFile` fails for a given file, as a function of the file
alone — independent of the database state. -/
def indexFileFails (resolve : String → String) (embedOk : List (List Char) → Bool)
    (read : String → Except String (List Char)) (f : String) : Bool :=
  match read f with
  | .error _ => true
  | .ok content =>
    if (chunkDocument resolve content f).length = 0 then false
    else !(embedOk ((chunkDocument resolve content f).map Chunk.text))

/-- The chunk count `indexFile` reports for a file on success. -/
def fileChunkCount (resolve : String → String)
    (read : String → Except String (List Char)) (f : String) : Nat :=
  match read f with
  | .error _ => 0
  | .ok content => (chunkDocument resolve content f).length

/-- Concrete document refuting C4: a 1001-character paragraph followed by
a 200-character paragraph. -/
def chunkSizeDoc : List Char :=
  List.replicate 1001 'a' ++ '\n' :: '\n' :: List.replicate 200 'b'

/-- Concrete document refuting C8: a 250-character paragraph, a blank
line, then an 800-character paragraph (large enough to force a flush). -/
def lineDoc : List Char :=
  List.replicate 250 'a' ++ '\n' :: '\n' :: List.replicate 800 'b'

/-- The 1-based source line number at character position `i` of a document
(the claim's notion of "the line number, within the source document"). -/
def lineAt (doc : List Char) (i : Nat) : Nat :=
  countLines (doc.take i)

/-- Concrete document refuting C1: a 1000-character paragraph followed by
a 50-character paragraph.  The second paragraph lands in the final buffer,
which is shorter than `minChunkSize` while a chunk already exists — it is
dropped. -/
def chunkCoverageDoc : List Char :=
  List.replicate 1000 'a' ++ '\n' :: '\n' :: List.replicate 50 'b'

def ceQuery : List Char := "gamma delta".data

def ceChunkA : Chunk := ⟨"gamma x".data, "p", 1, 1, 0, 7⟩

def ceChunkB : Chunk := ⟨"gamma delta".data, "p", 1, 1, 1, 11⟩

def ceRowA : RawRow := ⟨ceChunkA, some (1 / 10)⟩

def ceRowB : RawRow := ⟨ceChunkB, some (1 / 10)⟩

/-- The scoring rule exactly as claim C7 words it — with DISTINCT query
words: `k` is the number of distinct lowercase query words longer than 3
characters occurring literally in the lowercased text.  (The source does
not deduplicate the keyword list; this definition exists to be compared
against the source behaviour.) -/
def distinctBoostScore (query : List Char) (base : ℚ) (text : List Char) : ℚ :=
  min (base + (1 / 5 : ℚ) * (((keywordsOf query).dedup).countP
    fun kw => containsSub (text.map Char.toLower) kw)) 1

def c7Chunk : Chunk := ⟨"alpha stuff".data, "p", 1, 1, 0, 11⟩

def c7Row : RawRow := ⟨c7Chunk, some (1 / 2)⟩

/-! ### Helper lemmas about `trim` -/

theorem trimLeft_length_le (l : List Char) : (trimLeft l).length ≤ l.length := by
  induction l with
  | nil => simp [trimLeft]
  | cons c cs ih =>
    rw [trimLeft]
    split
    · exact Nat.le_trans ih (by simp)
    · simp

theorem trim_length_le (l : List Char) : (trim l).length ≤ l.length := by
  calc (trim l).length = (trimLeft (trimLeft l).reverse).length := by
        simp [trim, trimRight]
    _ ≤ (trimLeft l).reverse.length := trimLeft_length_le _
    _ = (trimLeft l).length := by simp
    _ ≤ l.length := trimLeft_length_le _

theorem trimLeft_suffix (l : List Char) : trimLeft l <:+ l := by
  induction l with
  | nil => simp [trimLeft]
  | cons c cs ih =>
    rw [trimLeft]
    split
    · exact ih.trans (List.suffix_cons c cs)
    · exact List.suffix_refl _

theorem trimLeft_mem_ws (l : List Char) (c : Char) (hc : c ∈ l)
    (h : ∀ d ∈ trimLeft l, isWS d) : isWS c := by
  induction l with
  | nil => cases hc
  | cons a as ih =>
    rw [trimLeft] at h
    by_cases ha : isWS a
    · rw [if_pos ha] at h
      rcases List.mem_cons.1 hc with rfl | hc
      · exact ha
      · exact ih hc h
    · rw [if_neg ha] at h
      exact h c hc

theorem trimLeft_eq_nil (l : List Char) (h : ∀ c ∈ l, isWS c) : trimLeft l = [] := by
  induction l with
  | nil => rfl
  | cons a as ih =>
    rw [trimLeft, if_pos (h a (List.mem_cons_self a as))]
    exact ih fun c hc => h c (List.mem_cons_of_mem a hc)

theorem trim_eq_nil_iff (l : List Char) : trim l = [] ↔ ∀ c ∈ l, isWS c := by
  constructor
  · intro h c hc
    have h2 : trimLeft (trimLeft l).reverse = [] := by
      have := congrArg List.reverse h
      simpa [trim, trimRight] using this
    refine trimLeft_mem_ws l c hc fun d hd => ?_
    refine trimLeft_mem_ws (trimLeft l).reverse d (List.mem_reverse.2 hd) ?_
    rw [h2]
    intro e he
    cases he
  · intro h
    have h1 : trimLeft l = [] := trimLeft_eq_nil l h
    simp [trim, trimRight, h1, trimLeft]

theorem trimLeft_head_not_ws (l : List Char) (c : Char) (t : List Char)
    (h : trimLeft l = c :: t) : ¬ isWS c := by
  induction l with
  | nil => simp [trimLeft] at h
  | cons a as ih =>
    rw [trimLeft] at h
    by_cases ha : isWS a
    · rw [if_pos ha] at h
      exact ih h
    · rw [if_neg ha] at h
      cases h
      exact ha

theorem trimLeft_eq_self_of_head (c : Char) (t : List Char) (hc : ¬ isWS c) :
    trimLeft (c :: t) = c :: t := by
  rw [trimLeft, if_neg hc]

/-- If `trim a = a` and `a` is non-empty, its first character is not
whitespace. -/
theorem trim_self_head (a : List Char) (ha : trim a = a) (hne : a ≠ []) :
    ∃ c t, a = c :: t ∧ ¬ isWS c := by
  have hlen : (trimLeft a).length = a.length := by
    have h1 : a.length ≤ (trimLeft a).length := by
      calc a.length = (trim a).length := by rw [ha]
        _ = (trimLeft (trimLeft a).reverse).length := by simp [trim, trimRight]
        _ ≤ (trimLeft a).reverse.length := trimLeft_length_le _
        _ = (trimLeft a).length := by simp
    exact Nat.le_antisymm (trimLeft_length_le a) h1
  have heq : trimLeft a = a := (trimLeft_suffix a).eq_of_length hlen
  cases a with
  | nil => exact absurd rfl hne
  | cons c t => exact ⟨c, t, rfl, trimLeft_head_not_ws (c :: t) c t heq⟩

/-- If `trim a = a` and `a` is non-empty, its last character is not
whitespace. -/
theorem trim_self_last (a : List Char) (ha : trim a = a) (hne : a ≠ []) :
    ∃ s c, a = s ++ [c] ∧ ¬ isWS c := by
  have hL : trimLeft a = a := by
    have hlen : (trimLeft a).length = a.length := by
      have h1 : a.length ≤ (trimLeft a).length := by
        calc a.length = (trim a).length := by rw [ha]
          _ = (trimLeft (trimLeft a).reverse).length := by simp [trim, trimRight]
          _ ≤ (trimLeft a).reverse.length := trimLeft_length_le _
          _ = (trimLeft a).length := by simp
      exact Nat.le_antisymm (trimLeft_length_le a) h1
    exact (trimLeft_suffix a).eq_of_length hlen
  have hR : (trimLeft a.reverse).reverse = a := by
    have := ha
    rw [trim, trimRight, hL] at this
    exact this
  have hRrev : trimLeft a.reverse = a.reverse := by
    have := congrArg List.reverse hR
    simpa using this
  cases hrev : a.reverse with
  | nil =>
    exfalso
    apply hne
    have := congrArg List.reverse hrev
    simpa using this
  | cons c t =>
    refine ⟨t.reverse, c, ?_, ?_⟩
    · have := congrArg List.reverse hrev
      simpa using this
    · rw [hrev] at hRrev
      exact trimLeft_head_not_ws (c :: t) c t hRrev

/-- `trim` is invariant on a concatenation whose first block starts with a
non-whitespace character and whose last block ends with one: the middle is
arbitrary. -/
theorem trim_append_of_ends (a m b : List Char) (ha : trim a = a) (hb : trim b = b)
    (hna : a ≠ []) (hnb : b ≠ []) : trim (a ++ m ++ b) = a ++ m ++ b := by
  obtain ⟨c, t, rfl, hc⟩ := trim_self_head a ha hna
  obtain ⟨s, d, hbs, hd⟩ := trim_self_last b hb hnb
  have hL : trimLeft (c :: t ++ m ++ b) = c :: t ++ m ++ b := by
    rw [List.cons_append, List.cons_append]
    exact trimLeft_eq_self_of_head c _ hc
  have hR : trimLeft (c :: t ++ m ++ b).reverse = (c :: t ++ m ++ b).reverse := by
    have : (c :: t ++ m ++ b).reverse = d :: (s.reverse ++ (m.reverse ++ (c :: t).reverse)) := by
      rw [hbs]
      simp
    rw [this]
    exact trimLeft_eq_self_of_head d _ hd
  rw [trim, trimRight, hL, hR]
  simp

/-- A string whose first and last characters are not whitespace is fixed
by `trim`. -/
theorem trim_eq_self_of_ends (a : List Char) (c : Char) (t : List Char) (s : List Char)
    (d : Char) (h1 : a = c :: t) (h2 : a = s ++ [d]) (hc : ¬ isWS c) (hd : ¬ isWS d) :
    trim a = a := by
  have hL : trimLeft a = a := by
    rw [h1]
    exact trimLeft_eq_self_of_head c t hc
  have hrev : a.reverse = d :: s.reverse := by
    rw [h2]
    simp
  have hR : trimLeft a.reverse = a.reverse := by
    rw [hrev]
    exact trimLeft_eq_self_of_head d s.reverse hd
  rw [trim, trimRight, hL, hR]
  simp

/-- `trimRight l` is a prefix of `l`. -/
theorem trimRight_prefix (l : List Char) : trimRight l <+: l := by
  rw [trimRight]
  have h := trimLeft_suffix l.reverse
  obtain ⟨u, hu⟩ := h
  refine ⟨u.reverse, ?_⟩
  have := congrArg List.reverse hu
  simpa using this

/-- The first character of a trimmed string is not whitespace. -/
theorem trim_head_not_ws (l : List Char) (c : Char) (t : List Char)
    (h : trim l = c :: t) : ¬ isWS c := by
  have hpre : trim l <+: trimLeft l := by
    rw [trim]
    exact trimRight_prefix (trimLeft l)
  obtain ⟨u, hu⟩ := hpre
  rw [h] at hu
  exact trimLeft_head_not_ws l c (t ++ u) (by rw [← hu]; simp)

/-- The last character of a trimmed string is not whitespace. -/
theorem trim_last_not_ws (l : List Char) (s : List Char) (d : Char)
    (h : trim l = s ++ [d]) : ¬ isWS d := by
  have hrev : (trim l).reverse = trimLeft (trimLeft l).reverse := by
    rw [trim, trimRight]
    simp
  rw [h] at hrev
  simp at hrev
  exact trimLeft_head_not_ws (trimLeft l).reverse d s.reverse hrev.symm

theorem trim_idem (l : List Char) : trim (trim l) = trim l := by
  rcases List.eq_nil_or_concat (trim l) with h | ⟨s, d, hsd'⟩
  · rw [h]
    rfl
  · have hsd : trim l = s ++ [d] := by simpa using hsd'
    have hne : trim l ≠ [] := by rw [hsd]; simp
    obtain ⟨c, t, hct⟩ := List.exists_cons_of_ne_nil hne
    exact trim_eq_self_of_ends (trim l) c t s d hct hsd
      (trim_head_not_ws l c t hct) (trim_last_not_ws l s d hsd)

theorem tight_trim (l : List Char) (h : ¬ (trim l).isEmpty) : Tight (trim l) :=
  ⟨trim_idem l, by simpa using h⟩

/-- Tightness is stable under concatenation around an arbitrary middle. -/
theorem tight_append (a m b : List Char) (ha : Tight a) (hb : Tight b) :
    Tight (a ++ m ++ b) := by
  refine ⟨trim_append_of_ends a m b ha.1 hb.1 ha.2 hb.2, ?_⟩
  intro h
  exact hb.2 (by simpa using (List.append_eq_nil.1 h).2)

/-! ### Helper lemmas about `splitParas` -/

theorem splitGo_nil_eq (fuel : Nat) (acc : List Char) : splitGo fuel acc [] = [acc.reverse] := by
  cases fuel <;> rfl

theorem splitGo_sep_eq (fuel : Nat) (acc cs : List Char) (k : Nat) (h : lastNLinWS cs = some k) :
    splitGo (fuel + 1) acc ('\n' :: cs) = acc.reverse :: splitGo fuel [] (cs.drop k) := by
  rw [splitGo]
  simp [h]

theorem splitGo_nl_eq (fuel : Nat) (acc cs : List Char) (h : lastNLinWS cs = none) :
    splitGo (fuel + 1) acc ('\n' :: cs) = splitGo fuel ('\n' :: acc) cs := by
  rw [splitGo]
  simp [h]

theorem splitGo_other_eq (fuel : Nat) (acc : List Char) (c : Char) (cs : List Char)
    (h : ¬ c = '\n') :
    splitGo (fuel + 1) acc (c :: cs) = splitGo fuel (c :: acc) cs := by
  rw [splitGo]
  simp [h]

/-- The characters a separator match consumes after its initial newline
are all whitespace. -/
theorem lastNLinWS_take_ws (l : List Char) (k : Nat) (h : lastNLinWS l = some k) :
    ∀ c ∈ l.take k, isWS c := by
  induction l generalizing k with
  | nil => simp [lastNLinWS] at h
  | cons a as ih =>
    rw [lastNLinWS] at h
    by_cases ha : isWS a
    · rw [if_pos ha] at h
      cases hcs : lastNLinWS as with
      | some j =>
        rw [hcs] at h
        cases h
        intro c hc
        rcases List.mem_cons.1 (by simpa using hc) with rfl | hc'
        · exact ha
        · exact ih j hcs c hc'
      | none =>
        rw [hcs] at h
        by_cases hnl : a = '\n'
        · rw [if_pos hnl] at h
          cases h
          intro c hc
          have : c = a := by simpa using hc
          rw [this]
          exact ha
        · rw [if_neg hnl] at h
          cases h
    · rw [if_neg ha] at h
      cases h

/-- Every character of every piece of `splitGo fuel acc s` comes from
`acc` or from `s`. -/
theorem splitGo_mem_chars (fuel : Nat) : ∀ acc s : List Char,
    ∀ p ∈ splitGo fuel acc s, ∀ c ∈ p, c ∈ acc ∨ c ∈ s := by
  induction fuel with
  | zero =>
    intro acc s p hp c hc
    cases s with
    | nil =>
      rw [splitGo_nil_eq] at hp
      rcases List.mem_singleton.1 hp with rfl
      exact Or.inl (List.mem_reverse.1 hc)
    | cons a cs =>
      rcases List.mem_singleton.1 hp with rfl
      exact Or.inl (List.mem_reverse.1 hc)
  | succ fuel ih =>
    intro acc s p hp c hc
    cases s with
    | nil =>
      rw [splitGo_nil_eq] at hp
      rcases List.mem_singleton.1 hp with rfl
      exact Or.inl (List.mem_reverse.1 hc)
    | cons a cs =>
      by_cases hnl : a = '\n'
      · subst hnl
        cases hk : lastNLinWS cs with
        | some k =>
          rw [splitGo_sep_eq fuel acc cs k hk] at hp
          rcases List.mem_cons.1 hp with rfl | hp'
          · exact Or.inl (List.mem_reverse.1 hc)
          · rcases ih [] (cs.drop k) p hp' c hc with h | h
            · cases h
            · exact Or.inr (List.mem_cons_of_mem _ (List.mem_of_mem_drop h))
        | none =>
          rw [splitGo_nl_eq fuel acc cs hk] at hp
          rcases ih _ cs p hp c hc with h | h
          · rcases List.mem_cons.1 h with rfl | h'
            · exact Or.inr (List.mem_cons_self _ _)
            · exact Or.inl h'
          · exact Or.inr (List.mem_cons_of_mem _ h)
      · rw [splitGo_other_eq fuel acc a cs hnl] at hp
        rcases ih _ cs p hp c hc with h | h
        · rcases List.mem_cons.1 h with rfl | h'
          · exact Or.inr (List.mem_cons_self _ _)
          · exact Or.inl h'
        · exact Or.inr (List.mem_cons_of_mem _ h)

/-- Every non-whitespace character of the input lands in some piece of the
split — separator matches consume only whitespace (given enough fuel). -/
theorem splitGo_cover (fuel : Nat) : ∀ acc s : List Char, s.length ≤ fuel →
    ∀ c, ¬ isWS c → (c ∈ acc ∨ c ∈ s) → ∃ p ∈ splitGo fuel acc s, c ∈ p := by
  induction fuel with
  | zero =>
    intro acc s hlen c _ hc
    have hs : s = [] := List.length_eq_zero.1 (Nat.le_zero.1 hlen)
    subst hs
    rcases hc with hc | hc
    · exact ⟨acc.reverse, by rw [splitGo_nil_eq]; simp, List.mem_reverse.2 hc⟩
    · cases hc
  | succ fuel ih =>
    intro acc s hlen c hws hc
    cases s with
    | nil =>
      rcases hc with hc | hc
      · exact ⟨acc.reverse, by rw [splitGo_nil_eq]; simp, List.mem_reverse.2 hc⟩
      · cases hc
    | cons a cs =>
      have hcs_len : cs.length ≤ fuel := by
        simp only [List.length_cons] at hlen
        omega
      by_cases hnl : a = '\n'
      · subst hnl
        cases hk : lastNLinWS cs with
        | some k =>
          rw [splitGo_sep_eq fuel acc cs k hk]
          rcases hc with hc | hc
          · exact ⟨acc.reverse, List.mem_cons_self _ _, List.mem_reverse.2 hc⟩
          · have hcnl : c ≠ '\n' := by
              intro h
              exact hws (by rw [h]; rfl)
            have hcs : c ∈ cs := by
              rcases List.mem_cons.1 hc with rfl | h
              · exact absurd rfl hcnl
              · exact h
            have hdrop : c ∈ cs.drop k := by
              have hsplit := List.take_append_drop k cs
              rcases List.mem_append.1 (by rw [hsplit]; exact hcs) with h | h
              · exact absurd (lastNLinWS_take_ws cs k hk c h) hws
              · exact h
            have hdrop_len : (cs.drop k).length ≤ fuel := by
              rw [List.length_drop]
              omega
            obtain ⟨p, hp, hcp⟩ := ih [] (cs.drop k) hdrop_len c hws (Or.inr hdrop)
            exact ⟨p, List.mem_cons_of_mem _ hp, hcp⟩
        | none =>
          rw [splitGo_nl_eq fuel acc cs hk]
          have hcnl : c ≠ '\n' := by
            intro h
            exact hws (by rw [h]; rfl)
          apply ih _ cs hcs_len c hws
          rcases hc with hc | hc
          · exact Or.inl (List.mem_cons_of_mem _ hc)
          · rcases List.mem_cons.1 hc with rfl | h
            · exact absurd rfl hcnl
            · exact Or.inr h
      · rw [splitGo_other_eq fuel acc a cs hnl]
        apply ih _ cs hcs_len c hws
        rcases hc with hc | hc
        · exact Or.inl (List.mem_cons_of_mem _ hc)
        · rcases List.mem_cons.1 hc with rfl | h
          · exact Or.inl (List.mem_cons_self _ _)
          · exact Or.inr h

/-- A document with a non-whitespace character has a non-empty trimmed
paragraph. -/
theorem trimmedParas_ne_nil (content : List Char) (c : Char) (hc : c ∈ content)
    (hws : ¬ isWS c) : trimmedParas content ≠ [] := by
  obtain ⟨p, hp, hcp⟩ := splitGo_cover content.length [] content (le_refl _) c hws (Or.inr hc)
  have htp : ¬ (trim p).isEmpty := by
    simp only [List.isEmpty_iff]
    intro h
    exact hws ((trim_eq_nil_iff p).1 h c hcp)
  have : trim p ∈ trimmedParas content := by
    rw [trimmedParas]
    exact List.mem_filter.2 ⟨List.mem_map_of_mem trim hp, by simpa using htp⟩
  exact List.ne_nil_of_mem this

/-- A whitespace-only document has no non-empty trimmed paragraph. -/
theorem trimmedParas_nil_of_ws (content : List Char) (h : ∀ c ∈ content, isWS c) :
    trimmedParas content = [] := by
  rw [trimmedParas, List.filter_eq_nil_iff]
  intro p hp
  obtain ⟨q, hq, rfl⟩ := List.mem_map.1 hp
  simp only [Bool.not_eq_true]
  rw [Bool.not_eq_false']
  simp only [List.isEmpty_iff]
  exact (trim_eq_nil_iff q).2 fun c hc =>
    (splitGo_mem_chars content.length [] content q hq c hc).elim
      (fun h' => absurd h' (by simp)) (h c)

theorem joinBuf_append_one (g : List (List Char)) (p : List Char) (hg : g ≠ []) :
    joinBuf (g ++ [p]) = joinBuf g ++ sep2 ++ p := by
  induction g with
  | nil => exact absurd rfl hg
  | cons q t ih =>
    cases t with
    | nil => simp [joinBuf]
    | cons r t' =>
      have h2 : (q :: r :: t') ++ [p] = q :: r :: (t' ++ [p]) := by simp
      rw [h2, joinBuf]
      have h3 : r :: (t' ++ [p]) = (r :: t') ++ [p] := by simp
      rw [h3, ih (by simp), joinBuf]
      simp

theorem tight_joinBuf (g : List (List Char)) (hg : g ≠ []) (h : ∀ p ∈ g, Tight p) :
    Tight (joinBuf g) := by
  induction g with
  | nil => exact absurd rfl hg
  | cons q t ih =>
    cases t with
    | nil =>
      rw [joinBuf]
      exact h q (List.mem_cons_self _ _)
    | cons r t' =>
      rw [joinBuf]
      exact tight_append q sep2 (joinBuf (r :: t'))
        (h q (List.mem_cons_self _ _))
        (ih (by simp) fun p hp => h p (List.mem_cons_of_mem _ hp))

theorem mem_infix_joinBuf (g : List (List Char)) (p : List Char) (hp : p ∈ g) :
    p <:+: joinBuf g := by
  induction g with
  | nil => cases hp
  | cons q t ih =>
    cases t with
    | nil =>
      rcases List.mem_singleton.1 hp with rfl
      rw [joinBuf]
    | cons r t' =>
      rw [joinBuf]
      rcases List.mem_cons.1 hp with rfl | hp'
      · exact ((List.prefix_append p (sep2 ++ joinBuf (r :: t'))).isInfix).trans
          (by rw [List.append_assoc])
      · exact ((ih hp').trans (List.suffix_append (q ++ sep2) (joinBuf (r :: t'))).isInfix).trans
          (by rw [List.append_assoc])

theorem countLines_pos (p : List Char) : 1 ≤ countLines p := by
  rw [countLines]
  omega

theorem lineSum_nil : lineSum [] = 0 := rfl

theorem lineSum_single (p : List Char) : lineSum [p] = countLines p := by
  simp [lineSum]

theorem lineSum_append_one (g : List (List Char)) (p : List Char) :
    lineSum (g ++ [p]) = lineSum g + countLines p := by
  simp [lineSum]

theorem lineSum_pos (g : List (List Char)) (hg : g ≠ []) : 1 ≤ lineSum g := by
  cases g with
  | nil => exact absurd rfl hg
  | cons p t =>
    have : lineSum (p :: t) = countLines p + lineSum t := by simp [lineSum]
    have := countLines_pos p
    omega

theorem lineChainFrom_ge_one (cs : List Chunk) (s n : Nat)
    (h : LineChainFrom s cs n) (hs : 1 ≤ s) : 1 ≤ n := by
  induction cs generalizing s with
  | nil =>
    rw [LineChainFrom] at h
    omega
  | cons c t ih =>
    rw [LineChainFrom] at h
    exact ih (c.line_end + 1) h.2 (by omega)

theorem lineChainFrom_append (cs : List Chunk) (s n : Nat) (c : Chunk)
    (h : LineChainFrom s cs n) (hc : c.line_start = n) :
    LineChainFrom s (cs ++ [c]) (c.line_end + 1) := by
  induction cs generalizing s with
  | nil =>
    rw [LineChainFrom] at h
    rw [List.nil_append, LineChainFrom, LineChainFrom]
    exact ⟨by omega, rfl⟩
  | cons d t ih =>
    rw [LineChainFrom] at h
    rw [List.cons_append, LineChainFrom]
    exact ⟨h.1, ih (d.line_end + 1) h.2⟩

theorem tnpList_nil : tnpList [] = [] := rfl

theorem tnpList_cons (p : List Char) (ps : List (List Char)) :
    tnpList (p :: ps) = tnp1 p ++ tnpList ps := by
  rw [tnpList, tnp1, List.map_cons, List.filter_cons]
  by_cases h : (trim p).isEmpty
  · simp [h, tnpList]
  · simp [h, tnpList]

theorem trimmedParas_eq_tnpList (content : List Char) :
    trimmedParas content = tnpList (splitParas content) := rfl

theorem stepPara_inv (resolve : String → String) (fp : String) (p : List Char)
    (T : List (List Char)) (st : ChunkState) (h : Inv T st) :
    Inv (T ++ tnp1 p) (stepPara resolve fp st p) := by
  obtain ⟨groups, buf, hT, hF, hTight, hCC, hCnt, hChain⟩ := h
  by_cases hts : (trim p).isEmpty
  · rw [tnp1, if_pos hts, List.append_nil, stepPara]
    simp only [hts, if_true]
    exact ⟨groups, buf, hT, hF, hTight, hCC, hCnt, hChain⟩
  · have htp : Tight (trim p) := tight_trim p (by simpa using hts)
    rw [tnp1, if_neg hts]
    rw [stepPara]
    simp only [hts, if_false]
    by_cases hcond : 0 < st.currentChunk.length ∧
        maxChunkSize < st.currentChunk.length + (trim p).length ∧
        minChunkSize ≤ st.currentChunk.length
    · rw [if_pos hcond]
      have hbufne : buf ≠ [] := by
        intro hb
        rw [hb] at hCC
        have : st.currentChunk = [] := hCC
        rw [this] at hcond
        simp at hcond
      have htj : Tight (joinBuf buf) := tight_joinBuf buf hbufne hTight
      have hls : 1 ≤ st.currentLineStart :=
        lineChainFrom_ge_one st.chunks 1 st.currentLineStart hChain (le_refl 1)
      refine ⟨groups ++ [buf], [trim p], ?_, ?_, ?_, ?_, ?_, ?_⟩
      · rw [hT, List.flatten_append]
        simp [List.append_assoc]
      · refine List.rel_append hF (List.forall₂_cons.2 ⟨?_, List.Forall₂.nil⟩)
        refine ⟨hbufne, hTight, ?_, ?_, ?_⟩
        · show trim st.currentChunk = joinBuf buf
          rw [hCC]
          exact htj.1
        · show st.currentLineStart + st.currentLineCount - 1 + 1 =
            st.currentLineStart + lineSum buf
          rw [hCnt] at *
          omega
        · exact hls
      · intro q hq
        rcases List.mem_singleton.1 hq with rfl
        exact htp
      · rfl
      · show countLines (trim p) = lineSum [trim p]
        rw [lineSum_single]
      · show LineChainFrom 1 (st.chunks ++ [_]) (st.currentLineStart + st.currentLineCount)
        have hchain2 := lineChainFrom_append st.chunks 1 st.currentLineStart
          (createChunk resolve st.currentChunk fp st.currentLineStart
            (st.currentLineStart + st.currentLineCount - 1) st.chunkIndex) hChain rfl
        have hend : (createChunk resolve st.currentChunk fp st.currentLineStart
            (st.currentLineStart + st.currentLineCount - 1) st.chunkIndex).line_end + 1 =
            st.currentLineStart + st.currentLineCount := by
          show st.currentLineStart + st.currentLineCount - 1 + 1 =
            st.currentLineStart + st.currentLineCount
          omega
        rw [hend] at hchain2
        exact hchain2
    · rw [if_neg hcond]
      by_cases hcc : 0 < st.currentChunk.length
      · have hbufne : buf ≠ [] := by
          intro hb
          rw [hb] at hCC
          have : st.currentChunk = [] := hCC
          rw [this] at hcc
          simp at hcc
        refine ⟨groups, buf ++ [trim p], ?_, hF, ?_, ?_, ?_, hChain⟩
        · rw [hT]
          simp [List.append_assoc]
        · intro q hq
          rcases List.mem_append.1 hq with hq' | hq'
          · exact hTight q hq'
          · rcases List.mem_singleton.1 hq' with rfl
            exact htp
        · show (if 0 < st.currentChunk.length then
              st.currentChunk ++ ('\n' :: '\n' :: trim p) else trim p) = joinBuf (buf ++ [trim p])
          rw [if_pos hcc, joinBuf_append_one buf (trim p) hbufne, hCC]
          simp [sep2]
        · show st.currentLineCount + countLines (trim p) = lineSum (buf ++ [trim p])
          rw [lineSum_append_one, hCnt]
      · have hccnil : st.currentChunk = [] := by
          cases hcc2 : st.currentChunk with
          | nil => rfl
          | cons a t =>
            rw [hcc2] at hcc
            simp at hcc
        have hbufnil : buf = [] := by
          cases hb : buf with
          | nil => rfl
          | cons q t =>
            exfalso
            have := tight_joinBuf buf (by rw [hb]; simp) hTight
            rw [← hCC, hccnil] at this
            exact this.2 rfl
        refine ⟨groups, [trim p], ?_, hF, ?_, ?_, ?_, hChain⟩
        · rw [hT, hbufnil]
          simp
        · intro q hq
          rcases List.mem_singleton.1 hq with rfl
          exact htp
        · show (if 0 < st.currentChunk.length then
              st.currentChunk ++ ('\n' :: '\n' :: trim p) else trim p) = joinBuf [trim p]
          rw [if_neg hcc]
          rfl
        · show st.currentLineCount + countLines (trim p) = lineSum [trim p]
          rw [lineSum_single, hCnt, hbufnil, lineSum_nil]
          omega

theorem initChunkState_inv : Inv [] initChunkState := by
  refine ⟨[], [], by simp, List.Forall₂.nil, by simp, rfl, rfl, rfl⟩

theorem chunkLoop_inv (resolve : String → String) (fp : String) (ps : List (List Char)) :
    ∀ T st, Inv T st → Inv (T ++ tnpList ps) (chunkLoop resolve fp st ps) := by
  induction ps with
  | nil =>
    intro T st h
    rw [tnpList_nil, List.append_nil, chunkLoop]
    exact h
  | cons p ps ih =>
    intro T st h
    rw [tnpList_cons, chunkLoop, ← List.append_assoc]
    exact ih (T ++ tnp1 p) _ (stepPara_inv resolve fp p T st h)

theorem chunkDocument_inv (resolve : String → String) (content : List Char) (fp : String) :
    Inv (trimmedParas content)
      (chunkLoop resolve fp initChunkState (splitParas content)) := by
  have h := chunkLoop_inv resolve fp (splitParas content) [] initChunkState initChunkState_inv
  rw [List.nil_append] at h
  rw [trimmedParas_eq_tnpList]
  exact h

/-- `chunkDocument` never returns the empty list (on any input at all). -/
theorem chunkDocument_ne_nil (resolve : String → String) (content : List Char) (fp : String) :
    chunkDocument resolve content fp ≠ [] := by
  rw [chunkDocument, finalFlush]
  split
  · simp
  · rename_i h
    intro hnil
    exact h (Or.inr (by rw [hnil]; rfl))

/-- If every raw paragraph trims to the empty string, the loop is a no-op. -/
theorem chunkLoop_skip (resolve : String → String) (fp : String) (ps : List (List Char))
    (st : ChunkState) (h : ∀ p ∈ ps, trim p = []) :
    chunkLoop resolve fp st ps = st := by
  induction ps with
  | nil => rw [chunkLoop]
  | cons p ps ih =>
    rw [chunkLoop, stepPara]
    simp only [h p (List.mem_cons_self _ _), List.isEmpty_nil, if_true]
    exact ih fun q hq => h q (List.mem_cons_of_mem _ hq)

/-- On input with no non-empty trimmed paragraph (e.g. empty or
whitespace-only), `chunkDocument` emits exactly one chunk, with empty text
and `line_end = 0 < 1 = line_start`. -/
theorem chunkDocument_of_tnp_nil (resolve : String → String) (content : List Char)
    (fp : String) (h : trimmedParas content = []) :
    chunkDocument resolve content fp =
      [⟨[], resolve fp, 1, 0, 0, 0⟩] := by
  have hall : ∀ p ∈ splitParas content, trim p = [] := by
    intro p hp
    rw [trimmedParas, List.filter_eq_nil_iff] at h
    have := h (trim p) (List.mem_map_of_mem trim hp)
    simp only [Bool.not_eq_true] at this
    rw [Bool.not_eq_false'] at this
    simpa [List.isEmpty_iff] using this
  rw [chunkDocument, chunkLoop_skip resolve fp _ _ hall]
  rfl

/-- Extract the witness group of a chunk from the `Forall₂` decomposition. -/
theorem forall₂_mem_right {α β : Type} (R : α → β → Prop) (as : List α) (bs : List β)
    (h : List.Forall₂ R as bs) (b : β) (hb : b ∈ bs) : ∃ a ∈ as, R a b := by
  induction h with
  | nil => cases hb
  | cons hR hF ih =>
    rcases List.mem_cons.1 hb with rfl | hb'
    · exact ⟨_, List.mem_cons_self _ _, hR⟩
    · obtain ⟨a, ha, hab⟩ := ih hb'
      exact ⟨a, List.mem_cons_of_mem _ ha, hab⟩

/-- The final-flush decomposition of `chunkDocument`: when the input has at
least one non-empty trimmed paragraph, the paragraph list splits, in
order, into the ghost groups of the emitted chunks followed by a possibly
dropped trailing buffer, which is only dropped when it is shorter than
`minChunkSize`. -/
theorem chunkDocument_decomp (resolve : String → String) (content : List Char) (fp : String)
    (hne : trimmedParas content ≠ []) :
    ∃ groups dropped,
      trimmedParas content = groups.flatten ++ dropped ∧
      List.Forall₂ GC groups (chunkDocument resolve content fp) ∧
      (dropped = [] ∨
        ((∀ p ∈ dropped, Tight p) ∧ dropped ≠ [] ∧
          (joinBuf dropped).length < minChunkSize)) := by
  obtain ⟨groups, buf, hT, hF, hTight, hCC, hCnt, hChain⟩ :=
    chunkDocument_inv resolve content fp
  rw [chunkDocument, finalFlush]
  split
  · rename_i hcond
    have hbufne : buf ≠ [] := by
      intro hb
      rcases hcond with hlen | hnil
      · rw [hb] at hCC
        have : (chunkLoop resolve fp initChunkState (splitParas content)).currentChunk = [] :=
          hCC
        rw [this] at hlen
        rw [minChunkSize] at hlen
        simp at hlen
      · have hgroups : groups = [] := by
          cases hg : groups with
          | nil => rfl
          | cons g gs =>
            exfalso
            rw [hg] at hF
            cases hcs : (chunkLoop resolve fp initChunkState (splitParas content)).chunks with
            | nil =>
              rw [hcs] at hF
              exact absurd (List.forall₂_nil_right_iff.1 hF) (by simp)
            | cons c cs =>
              rw [hcs] at hnil
              simp at hnil
        rw [hgroups, hb] at hT
        exact hne (by rw [hT]; rfl)
    have htj : Tight (joinBuf buf) := tight_joinBuf buf hbufne hTight
    have hls : 1 ≤ (chunkLoop resolve fp initChunkState (splitParas content)).currentLineStart :=
      lineChainFrom_ge_one _ 1 _ hChain (le_refl 1)
    refine ⟨groups ++ [buf], [], ?_, ?_, Or.inl rfl⟩
    · rw [hT, List.flatten_append]
      simp
    · refine List.rel_append hF (List.forall₂_cons.2 ⟨?_, List.Forall₂.nil⟩)
      refine ⟨hbufne, hTight, ?_, ?_, ?_⟩
      · show trim _ = joinBuf buf
        rw [hCC]
        exact htj.1
      · simp only [createChunk]
        rw [← hCnt]
        omega
      · exact hls
  · rename_i hcond
    refine ⟨groups, buf, hT, hF, ?_⟩
    cases hb : buf with
    | nil => exact Or.inl rfl
    | cons q t =>
      rw [hb] at hTight hCC
      refine Or.inr ⟨hTight, by simp, ?_⟩
      have hmin : ¬ minChunkSize ≤ (joinBuf (q :: t)).length := by
        intro hmin
        exact hcond (Or.inl (by rw [hCC]; exact hmin))
      omega

/-- The emitted chunks always form a line chain starting at line 1. -/
theorem chunkDocument_chain (resolve : String → String) (content : List Char) (fp : String) :
    ∃ n, LineChainFrom 1 (chunkDocument resolve content fp) n := by
  obtain ⟨groups, buf, hT, hF, hTight, hCC, hCnt, hChain⟩ :=
    chunkDocument_inv resolve content fp
  rw [chunkDocument, finalFlush]
  split
  · refine ⟨_, lineChainFrom_append _ 1 _ _ hChain rfl⟩
  · exact ⟨_, hChain⟩

theorem stepPara_size (resolve : String → String) (fp : String) (p : List Char)
    (st : ChunkState) (M : Nat) (hp : (trim p).length ≤ M) (h : SizeInv M st) :
    SizeInv M (stepPara resolve fp st p) := by
  obtain ⟨hchunks, hcc⟩ := h
  rw [stepPara]
  by_cases hts : (trim p).isEmpty
  · rw [if_pos hts]
    exact ⟨hchunks, hcc⟩
  · rw [if_neg hts]
    by_cases hcond : 0 < st.currentChunk.length ∧
        maxChunkSize < st.currentChunk.length + (trim p).length ∧
        minChunkSize ≤ st.currentChunk.length
    · rw [if_pos hcond]
      constructor
      · intro c hc
        rcases List.mem_append.1 hc with hc' | hc'
        · exact hchunks c hc'
        · rcases List.mem_singleton.1 hc' with rfl
          show (trim st.currentChunk).length ≤ maxChunkSize + 2 + M
          exact le_trans (trim_length_le st.currentChunk) hcc
      · show (trim p).length ≤ maxChunkSize + 2 + M
        omega
    · rw [if_neg hcond]
      refine ⟨hchunks, ?_⟩
      show (if 0 < st.currentChunk.length then
          st.currentChunk ++ ('\n' :: '\n' :: trim p) else trim p).length ≤
        maxChunkSize + 2 + M
      by_cases hcc0 : 0 < st.currentChunk.length
      · rw [if_pos hcc0]
        have hor : st.currentChunk.length + (trim p).length ≤ maxChunkSize ∨
            st.currentChunk.length < minChunkSize := by
          by_contra hcon
          push_neg at hcon
          exact hcond ⟨hcc0, hcon.1, hcon.2⟩
        have hmm : minChunkSize ≤ maxChunkSize := by
          rw [minChunkSize, maxChunkSize]
          omega
        have hlen : (st.currentChunk ++ ('\n' :: '\n' :: trim p)).length =
            st.currentChunk.length + 2 + (trim p).length := by
          simp
          omega
        rw [hlen]
        omega
      · rw [if_neg hcc0]
        omega

theorem chunkLoop_size (resolve : String → String) (fp : String) (ps : List (List Char))
    (M : Nat) : ∀ st, (∀ p ∈ ps, (trim p).length ≤ M) → SizeInv M st →
    SizeInv M (chunkLoop resolve fp st ps) := by
  induction ps with
  | nil =>
    intro st _ h
    rw [chunkLoop]
    exact h
  | cons p ps ih =>
    intro st hps h
    rw [chunkLoop]
    exact ih _ (fun q hq => hps q (List.mem_cons_of_mem _ hq))
      (stepPara_size resolve fp p st M (hps p (List.mem_cons_self _ _)) h)

/-- If every non-empty trimmed paragraph has length at most `M`, every
chunk text has length at most `maxChunkSize + 2 + M`. -/
theorem chunkDocument_size (resolve : String → String) (content : List Char) (fp : String)
    (M : Nat) (hM : ∀ q ∈ trimmedParas content, q.length ≤ M) :
    ∀ c ∈ chunkDocument resolve content fp, c.text.length ≤ maxChunkSize + 2 + M := by
  have hps : ∀ p ∈ splitParas content, (trim p).length ≤ M := by
    intro p hp
    by_cases hts : (trim p).isEmpty
    · rw [List.isEmpty_iff] at hts
      rw [hts]
      simp
    · refine hM (trim p) ?_
      rw [trimmedParas]
      exact List.mem_filter.2 ⟨List.mem_map_of_mem trim hp, by simpa using hts⟩
  have hloop := chunkLoop_size resolve fp (splitParas content) M initChunkState hps
    ⟨fun c hc => absurd hc (List.not_mem_nil c), Nat.zero_le _⟩
  intro c hc
  rw [chunkDocument, finalFlush] at hc
  revert hc
  split
  · intro hc
    rcases List.mem_append.1 hc with hc' | hc'
    · exact hloop.1 c hc'
    · rcases List.mem_singleton.1 hc' with rfl
      show (trim _).length ≤ maxChunkSize + 2 + M
      exact le_trans (trim_length_le _) hloop.2
  · intro hc
    exact hloop.1 c hc

/-! ### Helper lemmas about the indexer -/

/-- Every chunk produced by `chunkDocument` carries the resolved path. -/
theorem stepPara_path (resolve : String → String) (fp : String) (p : List Char)
    (st : ChunkState) (h : ∀ c ∈ st.chunks, c.file_path = resolve fp) :
    ∀ c ∈ (stepPara resolve fp st p).chunks, c.file_path = resolve fp := by
  rw [stepPara]
  by_cases hts : (trim p).isEmpty
  · rw [if_pos hts]
    exact h
  · rw [if_neg hts]
    by_cases hcond : 0 < st.currentChunk.length ∧
        maxChunkSize < st.currentChunk.length + (trim p).length ∧
        minChunkSize ≤ st.currentChunk.length
    · rw [if_pos hcond]
      intro c hc
      rcases List.mem_append.1 hc with hc' | hc'
      · exact h c hc'
      · rcases List.mem_singleton.1 hc' with rfl
        rfl
    · rw [if_neg hcond]
      exact h

theorem chunkLoop_path (resolve : String → String) (fp : String) (ps : List (List Char)) :
    ∀ st, (∀ c ∈ st.chunks, c.file_path = resolve fp) →
    ∀ c ∈ (chunkLoop resolve fp st ps).chunks, c.file_path = resolve fp := by
  induction ps with
  | nil =>
    intro st h
    rw [chunkLoop]
    exact h
  | cons p ps ih =>
    intro st h
    rw [chunkLoop]
    exact ih _ (stepPara_path resolve fp p st h)

theorem chunkDocument_path (resolve : String → String) (content : List Char) (fp : String) :
    ∀ c ∈ chunkDocument resolve content fp, c.file_path = resolve fp := by
  have hloop := chunkLoop_path resolve fp (splitParas content) initChunkState
    (fun c hc => absurd hc (List.not_mem_nil c))
  intro c hc
  rw [chunkDocument, finalFlush] at hc
  revert hc
  split
  · intro hc
    rcases List.mem_append.1 hc with hc' | hc'
    · exact hloop c hc'
    · rcases List.mem_singleton.1 hc' with rfl
      rfl
  · intro hc
    exact hloop c hc

/-- A successful `indexFile` (readable file, working deletion, working
embedding batch): the resulting table is exactly the previous rows of
other paths followed by the freshly computed rows, and the returned count
is the chunk count. -/
theorem indexFile_ok_eq (resolve : String → String) (embed : List Char → List ℚ)
    (embedOk : List (List Char) → Bool) (st : VectorDB) (fp : String) (content : List Char)
    (hE : embedOk ((chunkDocument resolve content fp).map Chunk.text) = true) :
    indexFile resolve embed embedOk st fp (.ok content) false =
      (⟨some ((tableRows st).filter (fun r => r.chunk.file_path ≠ resolve fp) ++
          chunkRows resolve embed content fp)⟩,
        .ok (chunkDocument resolve content fp).length) := by
  have hne := chunkDocument_ne_nil resolve content fp
  have hlen : ¬ (chunkDocument resolve content fp).length = 0 := by
    simpa [List.length_eq_zero] using hne
  rw [indexFile]
  cases hst : st.table with
  | none =>
    simp only [deleteFileChunks, hst]
    rw [if_neg hlen, addChunks, if_neg hlen, if_neg (not_not_intro hE)]
    simp only [hst]
    rw [chunkRows, tableRows, hst]
    rfl
  | some t =>
    simp only [deleteFileChunks, hst, Bool.false_eq_true, if_false]
    rw [if_neg hlen, addChunks, if_neg hlen, if_neg (not_not_intro hE)]
    simp only []
    rw [chunkRows, tableRows, hst]
    rfl

/-- After a successful `indexFile` of path `fp`, the rows stored for the
resolved path are exactly the fresh chunk rows, and the rows of every
other path are untouched. -/
theorem indexFile_rowsFor (resolve : String → String) (embed : List Char → List ℚ)
    (embedOk : List (List Char) → Bool) (st : VectorDB) (fp : String) (content : List Char)
    (hE : embedOk ((chunkDocument resolve content fp).map Chunk.text) = true) :
    rowsFor (indexFile resolve embed embedOk st fp (.ok content) false).1 (resolve fp) =
        chunkRows resolve embed content fp ∧
      (tableRows (indexFile resolve embed embedOk st fp (.ok content) false).1).filter
          (fun r => r.chunk.file_path ≠ resolve fp) =
        (tableRows st).filter (fun r => r.chunk.file_path ≠ resolve fp) := by
  rw [indexFile_ok_eq resolve embed embedOk st fp content hE]
  have hpaths : ∀ r ∈ chunkRows resolve embed content fp,
      r.chunk.file_path = resolve fp := by
    intro r hr
    rw [chunkRows] at hr
    obtain ⟨c, hc, rfl⟩ := List.mem_map.1 hr
    exact chunkDocument_path resolve content fp c hc
  constructor
  · rw [rowsFor, tableRows]
    show ((tableRows st).filter _ ++ chunkRows resolve embed content fp).filter _ = _
    rw [List.filter_append, List.filter_filter]
    have h1 : ((tableRows st).filter fun r =>
        decide (r.chunk.file_path = resolve fp) && decide (r.chunk.file_path ≠ resolve fp)) =
        [] := by
      rw [List.filter_eq_nil_iff]
      intro r _
      by_cases hrp : r.chunk.file_path = resolve fp <;> simp [hrp]
    rw [h1, List.nil_append, List.filter_eq_self.2]
    intro r hr
    simp [hpaths r hr]
  · rw [tableRows]
    show ((tableRows st).filter _ ++ chunkRows resolve embed content fp).filter _ = _
    rw [List.filter_append, List.filter_filter]
    have h2 : ((chunkRows resolve embed content fp).filter fun r =>
        decide (r.chunk.file_path ≠ resolve fp)) = [] := by
      rw [List.filter_eq_nil_iff]
      intro r hr
      simp [hpaths r hr]
    rw [h2, List.append_nil]
    congr 1
    funext r
    by_cases hrp : r.chunk.file_path = resolve fp <;> simp [hrp]

/-- The outcome component of `indexFile` depends only on the file, not on
the database state: this is the error-isolation property of the indexer. -/
theorem indexFile_outcome (resolve : String → String) (embed : List Char → List ℚ)
    (embedOk : List (List Char) → Bool) (read : String → Except String (List Char))
    (dF : Bool) (st : VectorDB) (f : String) :
    (indexFile resolve embed embedOk st f (read f) dF).2 =
      if indexFileFails resolve embedOk read f then Except.error "Failed to index"
      else Except.ok (fileChunkCount resolve read f) := by
  cases hr : read f with
  | error e =>
    simp only [indexFile, indexFileFails, hr]
    rfl
  | ok content =>
    simp only [indexFile, indexFileFails, fileChunkCount, hr]
    by_cases hlen : (chunkDocument resolve content f).length = 0
    · rw [if_pos hlen, if_pos hlen]
      simp [hlen]
    · rw [if_neg hlen, if_neg hlen, addChunks, if_neg hlen]
      by_cases hE : embedOk ((chunkDocument resolve content f).map Chunk.text) = true
      · rw [if_neg (not_not_intro hE), hE]
        cases hst1 : (deleteFileChunks resolve st f dF).1.table with
        | none => simp
        | some t => simp
      · rw [if_pos hE]
        have hE' : embedOk ((chunkDocument resolve content f).map Chunk.text) = false :=
          Bool.eq_false_iff.2 hE
        rw [hE']
        simp

/-- Closed form of the `indexDirectory` loop: the final count adds up the
chunk counts of exactly the non-failing files, and the failure list
collects exactly the failing files, in order — each file is processed
independently of the others and of the accumulated state. -/
theorem indexDirGo_spec (resolve : String → String) (embed : List Char → List ℚ)
    (embedOk : List (List Char) → Bool) (read : String → Except String (List Char))
    (dF : String → Bool) (files : List String) :
    ∀ st n acc,
    (indexDirGo resolve embed embedOk read dF st files n acc).2.1 =
        n + (files.map fun f => if indexFileFails resolve embedOk read f then 0
              else fileChunkCount resolve read f).sum ∧
      (indexDirGo resolve embed embedOk read dF st files n acc).2.2 =
        acc ++ files.filter fun f => indexFileFails resolve embedOk read f := by
  induction files with
  | nil =>
    intro st n acc
    rw [indexDirGo]
    simp
  | cons f fs ih =>
    intro st n acc
    rw [indexDirGo]
    have hout := indexFile_outcome resolve embed embedOk read (dF f) st f
    rcases hres : indexFile resolve embed embedOk st f (read f) (dF f) with ⟨st1, out⟩
    rw [hres] at hout
    by_cases hff : indexFileFails resolve embedOk read f
    · rw [if_pos hff] at hout
      have hout2 : out = Except.error "Failed to index" := hout
      subst hout2
      obtain ⟨ih1, ih2⟩ := ih st1 n (acc ++ [f])
      refine ⟨?_, ?_⟩
      · show (indexDirGo resolve embed embedOk read dF st1 fs n (acc ++ [f])).2.1 = _
        rw [ih1]
        simp [hff]
      · show (indexDirGo resolve embed embedOk read dF st1 fs n (acc ++ [f])).2.2 = _
        rw [ih2, List.filter_cons, if_pos (by simpa using hff)]
        simp
    · rw [if_neg hff] at hout
      have hout2 : out = Except.ok (fileChunkCount resolve read f) := hout
      subst hout2
      obtain ⟨ih1, ih2⟩ := ih st1 (n + fileChunkCount resolve read f) acc
      refine ⟨?_, ?_⟩
      · show (indexDirGo resolve embed embedOk read dF st1 fs
            (n + fileChunkCount resolve read f) acc).2.1 = _
        rw [ih1]
        simp [hff]
        omega
      · show (indexDirGo resolve embed embedOk read dF st1 fs
            (n + fileChunkCount resolve read f) acc).2.2 = _
        rw [ih2, List.filter_cons, if_neg (by simpa using hff)]

/-- `deleteFileChunks` catches an underlying deletion failure: it returns
`0` with the state unchanged, and never raises. -/
theorem deleteFileChunks_fail_eq (resolve : String → String) (st : VectorDB) (f : String) :
    deleteFileChunks resolve st f true = (st, 0) := by
  cases hst : st.table <;> simp [deleteFileChunks, hst]

/-- Even when the prior deletion silently failed, `indexFile` succeeds and
appends the fresh rows after the stale ones. -/
theorem indexFile_delfail_eq (resolve : String → String) (embed : List Char → List ℚ)
    (embedOk : List (List Char) → Bool) (st : VectorDB) (fp : String) (content : List Char)
    (hE : embedOk ((chunkDocument resolve content fp).map Chunk.text) = true) :
    indexFile resolve embed embedOk st fp (.ok content) true =
      (⟨some (tableRows st ++ chunkRows resolve embed content fp)⟩,
        .ok (chunkDocument resolve content fp).length) := by
  have hne := chunkDocument_ne_nil resolve content fp
  have hlen : ¬ (chunkDocument resolve content fp).length = 0 := by
    simpa [List.length_eq_zero] using hne
  rw [indexFile]
  simp only [deleteFileChunks_fail_eq]
  rw [if_neg hlen, addChunks, if_neg hlen, if_neg (not_not_intro hE)]
  cases hst : st.table with
  | none =>
    rw [chunkRows, tableRows, hst]
    rfl
  | some t =>
    rw [chunkRows, tableRows, hst]
    rfl

/-! ### Helper lemmas about the retriever -/

theorem vectorDbSearch_mem (raw : List RawRow) (res : SearchResult)
    (h : res ∈ vectorDbSearch raw) :
    ∃ r ∈ raw, res = ⟨r.chunk, 1 - r.dist.getD 0, r.dist.getD 0⟩ := by
  rw [vectorDbSearch] at h
  obtain ⟨r, hr, rfl⟩ := List.mem_map.1 h
  exact ⟨r, hr, rfl⟩

theorem boostResult_score (query : List Char) (r : SearchResult) :
    (boostResult query r).score =
      min (r.score + (1 / 5 : ℚ) * keywordMatches query r.chunk.text) 1 := rfl

theorem boostResult_chunk (query : List Char) (r : SearchResult) :
    (boostResult query r).chunk = r.chunk := rfl

/-- Boosting never decreases a score that is at most 1. -/
theorem boostResult_ge (query : List Char) (r : SearchResult) (h : r.score ≤ 1) :
    r.score ≤ (boostResult query r).score := by
  rw [boostResult_score]
  refine le_min ?_ h
  have : (0 : ℚ) ≤ (1 / 5 : ℚ) * keywordMatches query r.chunk.text := by positivity
  linarith

/-- With equal base scores, more keyword matches give at least the same
boosted score. -/
theorem boostResult_mono (query : List Char) (r s : SearchResult)
    (hb : r.score = s.score)
    (hk : keywordMatches query s.chunk.text ≤ keywordMatches query r.chunk.text) :
    (boostResult query s).score ≤ (boostResult query r).score := by
  rw [boostResult_score, boostResult_score, hb]
  have hq : ((keywordMatches query s.chunk.text : ℚ)) ≤
      (keywordMatches query r.chunk.text : ℚ) := by exact_mod_cast hk
  have : s.score + (1 / 5 : ℚ) * keywordMatches query s.chunk.text ≤
      s.score + (1 / 5 : ℚ) * keywordMatches query r.chunk.text := by nlinarith
  exact min_le_min this (le_refl 1)

/-- With equal base scores and strictly more matches, the boosted score is
strictly larger — unless the smaller one is already capped at 1. -/
theorem boostResult_strict (query : List Char) (r s : SearchResult)
    (hb : r.score = s.score)
    (hk : keywordMatches query s.chunk.text < keywordMatches query r.chunk.text)
    (hcap : (boostResult query s).score < 1) :
    (boostResult query s).score < (boostResult query r).score := by
  rw [boostResult_score] at hcap ⊢
  rw [boostResult_score, hb]
  set ks : ℚ := (keywordMatches query s.chunk.text : ℚ) with hks
  set kr : ℚ := (keywordMatches query r.chunk.text : ℚ) with hkr
  have hklt : ks + 1 ≤ kr := by
    rw [hks, hkr]
    exact_mod_cast hk
  have hsmin : min (s.score + (1 / 5 : ℚ) * ks) 1 ≤ s.score + (1 / 5 : ℚ) * ks :=
    min_le_left _ _
  rcases le_total (s.score + (1 / 5 : ℚ) * kr) 1 with h1 | h1
  · rw [min_eq_left h1]
    have h2 : s.score + (1 / 5 : ℚ) * ks < s.score + (1 / 5 : ℚ) * kr := by nlinarith
    calc min (s.score + (1 / 5 : ℚ) * ks) 1 ≤ s.score + (1 / 5 : ℚ) * ks := hsmin
      _ < s.score + (1 / 5 : ℚ) * kr := h2
  · rw [min_eq_right h1]
    exact hcap

theorem hybridSearch_on_eq (raw : List RawRow) (query : List Char) (limit : Nat) :
    hybridSearch raw query limit true =
      (List.insertionSort scoreDesc ((vectorDbSearch raw).map (boostResult query))).take
        limit := by
  rw [hybridSearch]
  simp

theorem hybridSearch_off_eq (raw : List RawRow) (query : List Char) (limit : Nat) :
    hybridSearch raw query limit false = (vectorDbSearch raw).take limit := by
  rw [hybridSearch]
  simp

theorem hybridSearch_length_le (raw : List RawRow) (query : List Char) (limit : Nat)
    (enableHybrid : Bool) : (hybridSearch raw query limit enableHybrid).length ≤ limit := by
  cases enableHybrid
  · rw [hybridSearch_off_eq, List.length_take]
    omega
  · rw [hybridSearch_on_eq, List.length_take]
    omega

/-- Every hybrid result is the boost of some semantic candidate. -/
theorem hybridSearch_mem (raw : List RawRow) (query : List Char) (limit : Nat)
    (res : SearchResult) (h : res ∈ hybridSearch raw query limit true) :
    ∃ c ∈ vectorDbSearch raw, res = boostResult query c := by
  rw [hybridSearch_on_eq] at h
  have h1 : res ∈ List.insertionSort scoreDesc
      ((vectorDbSearch raw).map (boostResult query)) :=
    (List.take_sublist _ _).mem h
  have h2 : res ∈ (vectorDbSearch raw).map (boostResult query) :=
    (List.perm_insertionSort scoreDesc _).mem_iff.1 h1
  obtain ⟨c, hc, rfl⟩ := List.mem_map.1 h2
  exact ⟨c, hc, rfl⟩

/-- The hybrid output is sorted by descending score. -/
theorem hybridSearch_sorted (raw : List RawRow) (query : List Char) (limit : Nat) :
    List.Pairwise scoreDesc (hybridSearch raw query limit true) := by
  rw [hybridSearch_on_eq]
  exact (List.sorted_insertionSort scoreDesc _).take

/-! ### Claim theorems -/

/-- Claim C2: `indexFile` deletes all previously stored rows whose source
path equals the normalized path before inserting the newly computed
chunks; after a successful run the store holds exactly the new chunk rows
for that path (so re-indexing shrunk content leaves exactly the new chunk
count, with no orphans), rows of other paths are untouched, and indexing
the same unchanged content twice yields the same row count for the path. -/
theorem indexFile_replace (resolve : String → String) (embed : List Char → List ℚ)
    (embedOk : List (List Char) → Bool) (st : VectorDB) (fp : String) (content : List Char)
    (hE : embedOk ((chunkDocument resolve content fp).map Chunk.text) = true) :
    ∃ st1 n, indexFile resolve embed embedOk st fp (.ok content) false = (st1, .ok n) ∧
      n = (chunkDocument resolve content fp).length ∧
      rowsFor st1 (resolve fp) = chunkRows resolve embed content fp ∧
      (tableRows st1).filter (fun r => r.chunk.file_path ≠ resolve fp) =
        (tableRows st).filter (fun r => r.chunk.file_path ≠ resolve fp) ∧
      (rowsFor st1 (resolve fp)).length = (chunkDocument resolve content fp).length ∧
      rowsFor (indexFile resolve embed embedOk st1 fp (.ok content) false).1 (resolve fp) =
        rowsFor st1 (resolve fp) := by
  obtain ⟨h1, h2⟩ := indexFile_rowsFor resolve embed embedOk st fp content hE
  obtain ⟨h1', _⟩ := indexFile_rowsFor resolve embed embedOk
    (indexFile resolve embed embedOk st fp (.ok content) false).1 fp content hE
  refine ⟨(indexFile resolve embed embedOk st fp (.ok content) false).1,
    (chunkDocument resolve content fp).length, ?_, rfl, h1, h2, ?_, ?_⟩
  · rw [indexFile_ok_eq resolve embed embedOk st fp content hE]
  · rw [h1, chunkRows]
    simp
  · rw [h1', h1]

/-- Claim C2 witness. -/
theorem indexFile_replace_witness :
    ∃ st1 n, indexFile id (fun _ => ([] : List ℚ)) (fun _ => true)
        ⟨none⟩ "a.md" (.ok "hello".data) false = (st1, .ok n) ∧
      n = (chunkDocument id "hello".data "a.md").length ∧
      rowsFor st1 (id "a.md") = chunkRows id (fun _ => ([] : List ℚ)) "hello".data "a.md" ∧
      (tableRows st1).filter (fun r => r.chunk.file_path ≠ id "a.md") =
        (tableRows (⟨none⟩ : VectorDB)).filter (fun r => r.chunk.file_path ≠ id "a.md") ∧
      (rowsFor st1 (id "a.md")).length = (chunkDocument id "hello".data "a.md").length ∧
      rowsFor (indexFile id (fun _ => ([] : List ℚ)) (fun _ => true) st1 "a.md"
          (.ok "hello".data) false).1 (id "a.md") = rowsFor st1 (id "a.md") :=
  indexFile_replace id (fun _ => ([] : List ℚ)) (fun _ => true) ⟨none⟩ "a.md"
    "hello".data rfl

/-- Claim C9: `indexDirectory` indexes each file independently: the failed
list is exactly the (state-independent) failing files in order, the pass
continues past failures, and the indexed count is the sum of the chunk
counts of the succeeding files. -/
theorem indexDirectory_isolation (resolve : String → String) (embed : List Char → List ℚ)
    (embedOk : List (List Char) → Bool) (read : String → Except String (List Char))
    (dF : String → Bool) (st : VectorDB) (files : List String) :
    (indexDirectory resolve embed embedOk read dF st files).2.1 =
        (files.map fun f => if indexFileFails resolve embedOk read f then 0
          else fileChunkCount resolve read f).sum ∧
      (indexDirectory resolve embed embedOk read dF st files).2.2 =
        files.filter fun f => indexFileFails resolve embedOk read f := by
  obtain ⟨h1, h2⟩ := indexDirGo_spec resolve embed embedOk read dF files st 0 []
  rw [indexDirectory]
  rw [h1, h2]
  simp

/-- Claim C9 witness: one failing file among two good ones. -/
theorem indexDirectory_isolation_witness :
    (indexDirectory id (fun _ => ([] : List ℚ)) (fun _ => true)
        (fun f => if f = "bad" then .error "boom" else .ok "hello".data)
        (fun _ => false) ⟨none⟩ ["g1", "bad", "g2"]).2.1 =
        ((["g1", "bad", "g2"].map fun f =>
          if indexFileFails id (fun _ => true)
              (fun f => if f = "bad" then .error "boom" else .ok "hello".data) f then 0
          else fileChunkCount id
              (fun f => if f = "bad" then .error "boom" else .ok "hello".data) f)).sum ∧
      (indexDirectory id (fun _ => ([] : List ℚ)) (fun _ => true)
        (fun f => if f = "bad" then .error "boom" else .ok "hello".data)
        (fun _ => false) ⟨none⟩ ["g1", "bad", "g2"]).2.2 =
        ["g1", "bad", "g2"].filter fun f => indexFileFails id (fun _ => true)
          (fun f => if f = "bad" then .error "boom" else .ok "hello".data) f :=
  indexDirectory_isolation id (fun _ => ([] : List ℚ)) (fun _ => true)
    (fun f => if f = "bad" then .error "boom" else .ok "hello".data)
    (fun _ => false) ⟨none⟩ ["g1", "bad", "g2"]

/-- Claim C10 (implicit): `deleteFileChunks` never propagates an error —
on an underlying deletion failure it catches and returns `0`
(success-shaped, state as observed), and `indexFile` then proceeds to
chunk and insert the new rows on top of the stale ones instead of
surfacing an `IndexError`. -/
theorem delete_error_swallowed (resolve : String → String) (embed : List Char → List ℚ)
    (embedOk : List (List Char) → Bool) (st : VectorDB) (fp : String) (content : List Char)
    (hE : embedOk ((chunkDocument resolve content fp).map Chunk.text) = true) :
    (∀ st0 f, deleteFileChunks resolve st0 f true = (st0, 0)) ∧
      indexFile resolve embed embedOk st fp (.ok content) true =
        (⟨some (tableRows st ++ chunkRows resolve embed content fp)⟩,
          .ok (chunkDocument resolve content fp).length) :=
  ⟨fun st0 f => deleteFileChunks_fail_eq resolve st0 f,
    indexFile_delfail_eq resolve embed embedOk st fp content hE⟩

/-- Claim C10 witness. -/
theorem delete_error_swallowed_witness :
    (∀ st0 f, deleteFileChunks id st0 f true = (st0, 0)) ∧
      indexFile id (fun _ => ([] : List ℚ)) (fun _ => true)
          ⟨some []⟩ "a.md" (.ok "hello".data) true =
        (⟨some (tableRows ⟨some []⟩ ++ chunkRows id (fun _ => ([] : List ℚ))
            "hello".data "a.md")⟩,
          .ok (chunkDocument id "hello".data "a.md").length) :=
  delete_error_swallowed id (fun _ => ([] : List ℚ)) (fun _ => true) ⟨some []⟩
    "a.md" "hello".data rfl

/-- Claim C4 counterexample: on `chunkSizeDoc`, the FIRST of the two
returned chunks (not the final one) has text length 1001 > maxChunkSize. -/
theorem chunk_size_counterexample :
    ((chunkDocument id chunkSizeDoc "doc.md").map fun c => c.text.length) = [1001, 200] ∧
      maxChunkSize < 1001 := by
  constructor
  · decide
  · decide

/-- Claim C4 (amended): chunks — including non-final ones — can exceed
`maxChunkSize`; the bound that does hold is `maxChunkSize + 2 + M`, where
`M` bounds the length of every non-empty trimmed paragraph (the `+ 2`
being the uncounted `'\n\n'` join separator). -/
theorem chunk_size_bound (resolve : String → String) (content : List Char) (fp : String)
    (M : Nat) (hM : ∀ q ∈ trimmedParas content, q.length ≤ M) :
    ∀ c ∈ chunkDocument resolve content fp, c.text.length ≤ maxChunkSize + 2 + M :=
  chunkDocument_size resolve content fp M hM

/-- Claim C4 witness. -/
theorem chunk_size_bound_witness :
    (∀ q ∈ trimmedParas "hi there".data, q.length ≤ 8) ∧
      ∀ c ∈ chunkDocument id "hi there".data "w.md",
        c.text.length ≤ maxChunkSize + 2 + 8 :=
  ⟨by decide, chunk_size_bound id "hi there".data "w.md" 8 (by decide)⟩

/-- Claim C5 counterexample: on the empty input, `chunkDocument` does NOT
return the empty chunk sequence — it returns one chunk with empty text
(whose `line_end = 0` lies below its `line_start = 1`). -/
theorem empty_input_counterexample :
    chunkDocument id [] "e.md" ≠ [] ∧
      chunkDocument id [] "e.md" = [⟨[], "e.md", 1, 0, 0, 0⟩] := by
  constructor
  · decide
  · decide

/-- Claim C5 (amended): on empty or whitespace-only input `chunkDocument`
does not fail and returns exactly ONE chunk, whose text is empty (the
final-flush condition `chunks.length === 0` forces an empty chunk out
instead of an empty sequence). -/
theorem empty_input_one_chunk (resolve : String → String) (content : List Char) (fp : String)
    (h : ∀ c ∈ content, isWS c) :
    chunkDocument resolve content fp = [⟨[], resolve fp, 1, 0, 0, 0⟩] :=
  chunkDocument_of_tnp_nil resolve content fp (trimmedParas_nil_of_ws content h)

/-- Claim C5 witness (whitespace-only input). -/
theorem empty_input_one_chunk_witness :
    chunkDocument id "  \t ".data "w.md" = [⟨[], id "w.md", 1, 0, 0, 0⟩] :=
  empty_input_one_chunk id "  \t ".data "w.md" (by decide)

/-- Claim C8 counterexample: the second chunk's text is the paragraph that
starts at character position 252 of the source, which is source line 3 —
but the chunk records `line_start = 2` (blank separator lines are never
counted). -/
theorem line_tracking_counterexample :
    ((chunkDocument id lineDoc "doc.md").map fun c => (c.line_start, c.line_end)) =
        [(1, 1), (2, 2)] ∧
      ((chunkDocument id lineDoc "doc.md").map Chunk.text) =
        [List.replicate 250 'a', List.replicate 800 'b'] ∧
      lineDoc.drop 252 = List.replicate 800 'b' ∧
      lineAt lineDoc 252 = 3 ∧ (2 : Nat) ≠ 3 := by
  refine ⟨by decide, by decide, by decide, by decide, by decide⟩

/-- Claim C8 (amended): the chunks form a line chain — the first chunk has
`line_start = 1` and each next chunk starts at the previous `line_end + 1`
with `line_end = line_start + accumulatedLineCount − 1` — where the
accumulated count sums only the trimmed paragraphs' lines (blank separator
lines are skipped, so `line_start` can undercount the true source line);
`line_start ≤ line_end` holds for every chunk whose text is non-empty. -/
theorem line_tracking (resolve : String → String) (content : List Char) (fp : String) :
    (∃ n, LineChainFrom 1 (chunkDocument resolve content fp) n) ∧
      ∀ c ∈ chunkDocument resolve content fp, ¬ c.text.isEmpty →
        c.line_start ≤ c.line_end := by
  refine ⟨chunkDocument_chain resolve content fp, ?_⟩
  by_cases hne : trimmedParas content = []
  · rw [chunkDocument_of_tnp_nil resolve content fp hne]
    intro c hc hempty
    rcases List.mem_singleton.1 hc with rfl
    simp at hempty
  · obtain ⟨groups, dropped, _, hF, _⟩ := chunkDocument_decomp resolve content fp hne
    intro c hc _
    obtain ⟨g, _, hGC⟩ := forall₂_mem_right GC groups _ hF c hc
    obtain ⟨hgne, _, _, hline, hls⟩ := hGC
    have := lineSum_pos g hgne
    omega

/-- Claim C8 witness. -/
theorem line_tracking_witness :
    (∃ n, LineChainFrom 1 (chunkDocument id "hi there".data "w.md") n) ∧
      ∀ c ∈ chunkDocument id "hi there".data "w.md", ¬ c.text.isEmpty →
        c.line_start ≤ c.line_end :=
  line_tracking id "hi there".data "w.md"

theorem forall₂_mem_left {α β : Type} (R : α → β → Prop) (as : List α) (bs : List β)
    (h : List.Forall₂ R as bs) (a : α) (ha : a ∈ as) : ∃ b ∈ bs, R a b := by
  induction h with
  | nil => cases ha
  | cons hR hF ih =>
    rcases List.mem_cons.1 ha with rfl | ha'
    · exact ⟨_, List.mem_cons_self _ _, hR⟩
    · obtain ⟨b, hb, hab⟩ := ih ha'
      exact ⟨b, List.mem_cons_of_mem _ hb, hab⟩

/-- Claim C1 counterexample: `chunkCoverageDoc` contains non-blank
characters and has the 50-`'b'` string among its non-empty trimmed
paragraphs, yet that paragraph is a substring of no returned chunk — it
was dropped. -/
theorem chunk_coverage_counterexample :
    'b' ∈ chunkCoverageDoc ∧ ¬ isWS 'b' ∧
      List.replicate 50 'b' ∈ trimmedParas chunkCoverageDoc ∧
      ((chunkDocument id chunkCoverageDoc "doc.md").map Chunk.text) =
        [List.replicate 1000 'a'] ∧
      ∀ ch ∈ chunkDocument id chunkCoverageDoc "doc.md",
        ¬ List.replicate 50 'b' <:+: ch.text := by
  have htext : ((chunkDocument id chunkCoverageDoc "doc.md").map Chunk.text) =
      [List.replicate 1000 'a'] := by decide
  refine ⟨by decide, by decide, by decide, htext, ?_⟩
  intro ch hch hinf
  have hmem : ch.text ∈ ((chunkDocument id chunkCoverageDoc "doc.md").map Chunk.text) :=
    List.mem_map_of_mem Chunk.text hch
  rw [htext] at hmem
  rcases List.mem_singleton.1 hmem with htext'
  have hb : 'b' ∈ ch.text := hinf.sublist.subset (by simp)
  rw [htext'] at hb
  rcases List.eq_of_mem_replicate hb with h
  cases h

/-- Claim C1 (amended): for an input with at least one non-blank
character, `chunkDocument` returns at least one chunk, and the non-empty
trimmed paragraphs decompose, in source order, into per-chunk groups
(each group joined by `'\n\n'` being exactly that chunk's text, so each of
its paragraphs is a substring of the chunk) followed by a possibly dropped
trailing rest, which is dropped only when its joined length is below
`minChunkSize`. -/
theorem chunk_coverage (resolve : String → String) (content : List Char) (fp : String)
    (c0 : Char) (hc0 : c0 ∈ content) (hws : ¬ isWS c0) :
    chunkDocument resolve content fp ≠ [] ∧
      ∃ groups dropped,
        trimmedParas content = groups.flatten ++ dropped ∧
        groups.length = (chunkDocument resolve content fp).length ∧
        List.Forall₂ (fun g ch => ch.text = joinBuf g) groups
          (chunkDocument resolve content fp) ∧
        (∀ p ∈ groups.flatten, ∃ ch ∈ chunkDocument resolve content fp, p <:+: ch.text) ∧
        (dropped = [] ∨ (dropped ≠ [] ∧ (joinBuf dropped).length < minChunkSize)) := by
  have hne : trimmedParas content ≠ [] := trimmedParas_ne_nil content c0 hc0 hws
  obtain ⟨groups, dropped, hT, hF, hdrop⟩ := chunkDocument_decomp resolve content fp hne
  refine ⟨chunkDocument_ne_nil resolve content fp, groups, dropped, hT, hF.length_eq,
    hF.imp (fun _ _ hGC => hGC.2.2.1), ?_, ?_⟩
  · intro p hp
    obtain ⟨g, hg, hpg⟩ := List.mem_flatten.1 hp
    obtain ⟨ch, hch, hGC⟩ := forall₂_mem_left GC groups _ hF g hg
    exact ⟨ch, hch, by rw [hGC.2.2.1]; exact mem_infix_joinBuf g p hpg⟩
  · rcases hdrop with h | ⟨_, h2, h3⟩
    · exact Or.inl h
    · exact Or.inr ⟨h2, h3⟩

/-- Claim C1 witness. -/
theorem chunk_coverage_witness :
    chunkDocument id "hi there".data "w.md" ≠ [] ∧
      ∃ groups dropped,
        trimmedParas "hi there".data = groups.flatten ++ dropped ∧
        groups.length = (chunkDocument id "hi there".data "w.md").length ∧
        List.Forall₂ (fun g ch => ch.text = joinBuf g) groups
          (chunkDocument id "hi there".data "w.md") ∧
        (∀ p ∈ groups.flatten, ∃ ch ∈ chunkDocument id "hi there".data "w.md",
          p <:+: ch.text) ∧
        (dropped = [] ∨ (dropped ≠ [] ∧ (joinBuf dropped).length < minChunkSize)) :=
  chunk_coverage id "hi there".data "w.md" 'h' (by decide) (by decide)

/-- Claim C3 counterexample: a raw row with distance 2 (possible for
normalized-embedding cosine/L2 distances, which range up to 2) yields a
SearchResult with `distance ≥ 0` but `score = 1 − 2 = −1 ∉ [0, 1]` — the
adapter applies no lower clamp. -/
theorem score_range_counterexample :
    ∃ res ∈ vectorDbSearch [⟨⟨"t".data, "p", 1, 1, 0, 1⟩, some 2⟩],
      0 ≤ res.distance ∧ res.score < 0 := by
  refine ⟨⟨⟨"t".data, "p", 1, 1, 0, 1⟩, 1 - (2 : ℚ), 2⟩, List.mem_singleton.2 rfl, ?_, ?_⟩
  · norm_num
  · show (1 : ℚ) - 2 < 0
    norm_num

/-- Claim C3 (amended): when the underlying distances are non-negative
(missing `_distance` defaults to 0), every result of the retrieval path
has `distance ≥ 0` and `score = 1 − distance ≤ 1`; `score ≥ 0` holds only
under the extra assumption `distance ≤ 1` — no lower clamping is applied.
Hybrid boosting keeps scores capped at 1 from above. -/
theorem score_range (raw : List RawRow) (query : List Char) (limit : Nat)
    (hd : ∀ r ∈ raw, 0 ≤ r.dist.getD 0) :
    (∀ res ∈ vectorDbSearch raw,
      0 ≤ res.distance ∧ res.score = 1 - res.distance ∧ res.score ≤ 1 ∧
        (res.distance ≤ 1 → 0 ≤ res.score)) ∧
      (∀ res ∈ hybridSearch raw query limit false,
        0 ≤ res.distance ∧ res.score ≤ 1) ∧
      (∀ res ∈ hybridSearch raw query limit true, res.score ≤ 1) := by
  have hbase : ∀ res ∈ vectorDbSearch raw,
      0 ≤ res.distance ∧ res.score = 1 - res.distance ∧ res.score ≤ 1 ∧
        (res.distance ≤ 1 → 0 ≤ res.score) := by
    intro res hres
    obtain ⟨r, hr, rfl⟩ := vectorDbSearch_mem raw res hres
    have h0 := hd r hr
    refine ⟨h0, rfl, ?_, fun h1 => ?_⟩
    · show (1 : ℚ) - r.dist.getD 0 ≤ 1
      linarith
    · have h1' : r.dist.getD 0 ≤ 1 := h1
      show (0 : ℚ) ≤ 1 - r.dist.getD 0
      linarith
  refine ⟨hbase, ?_, ?_⟩
  · intro res hres
    rw [hybridSearch_off_eq] at hres
    have := hbase res ((List.take_sublist _ _).mem hres)
    exact ⟨this.1, this.2.2.1⟩
  · intro res hres
    obtain ⟨c, _, rfl⟩ := hybridSearch_mem raw query limit res hres
    rw [boostResult_score]
    exact min_le_right _ _

/-- Claim C3 witness. -/
theorem score_range_witness :
    (∀ res ∈ vectorDbSearch [⟨⟨"t".data, "p", 1, 1, 0, 1⟩, some 1⟩],
      0 ≤ res.distance ∧ res.score = 1 - res.distance ∧ res.score ≤ 1 ∧
        (res.distance ≤ 1 → 0 ≤ res.score)) ∧
      (∀ res ∈ hybridSearch [⟨⟨"t".data, "p", 1, 1, 0, 1⟩, some 1⟩] "query".data 3 false,
        0 ≤ res.distance ∧ res.score ≤ 1) ∧
      (∀ res ∈ hybridSearch [⟨⟨"t".data, "p", 1, 1, 0, 1⟩, some 1⟩] "query".data 3 true,
        res.score ≤ 1) :=
  score_range [⟨⟨"t".data, "p", 1, 1, 0, 1⟩, some 1⟩] "query".data 3
    (by intro r hr; rcases List.mem_singleton.1 hr with rfl; exact zero_le_one)

/-- Positions later in the hybrid output never carry a larger score. -/
theorem hybridSearch_get_le (raw : List RawRow) (query : List Char) (limit : Nat)
    (i j : Fin (hybridSearch raw query limit true).length) (hij : i ≤ j) :
    ((hybridSearch raw query limit true).get j).score ≤
      ((hybridSearch raw query limit true).get i).score := by
  rcases eq_or_lt_of_le hij with heq | hlt
  · rw [heq]
  · exact List.pairwise_iff_get.1 (hybridSearch_sorted raw query limit) i j hlt

/-- Claim C6 counterexample: both candidates have base score `9/10`;
candidate B matches 2 keywords, candidate A only 1; both boosted scores
cap at `1.0`, and the stable sort keeps the vector order — so the
strictly-more-matching B IS ranked below the fewer-matching A. -/
theorem hybrid_monotonicity_counterexample :
    keywordMatches ceQuery ceChunkA.text = 1 ∧
      keywordMatches ceQuery ceChunkB.text = 2 ∧
      (vectorDbSearch [ceRowA, ceRowB]).map SearchResult.score = [9 / 10, 9 / 10] ∧
      (hybridSearch [ceRowA, ceRowB] ceQuery 5 true).map SearchResult.chunk =
        [ceChunkA, ceChunkB] ∧
      (hybridSearch [ceRowA, ceRowB] ceQuery 5 true).map SearchResult.score = [1, 1] := by
  have hkA : keywordMatches ceQuery ceChunkA.text = 1 := by decide
  have hkB : keywordMatches ceQuery ceChunkB.text = 2 := by decide
  have hsem : vectorDbSearch [ceRowA, ceRowB] =
      [⟨ceChunkA, 1 - (1 / 10 : ℚ), 1 / 10⟩, ⟨ceChunkB, 1 - (1 / 10 : ℚ), 1 / 10⟩] := rfl
  have hbA : boostResult ceQuery ⟨ceChunkA, 1 - (1 / 10 : ℚ), 1 / 10⟩ =
      ⟨ceChunkA, 1, 1 / 10⟩ := by
    show SearchResult.mk ceChunkA
      (min ((1 - (1 / 10 : ℚ)) + (1 / 5 : ℚ) * (keywordMatches ceQuery ceChunkA.text : ℚ)) 1)
      (1 / 10) = ⟨ceChunkA, 1, 1 / 10⟩
    rw [hkA]
    have h1 : (1 - (1 / 10 : ℚ)) + (1 / 5 : ℚ) * ((1 : ℕ) : ℚ) = 11 / 10 := by
      push_cast
      norm_num
    rw [h1, min_eq_right (by norm_num : (1 : ℚ) ≤ 11 / 10)]
  have hbB : boostResult ceQuery ⟨ceChunkB, 1 - (1 / 10 : ℚ), 1 / 10⟩ =
      ⟨ceChunkB, 1, 1 / 10⟩ := by
    show SearchResult.mk ceChunkB
      (min ((1 - (1 / 10 : ℚ)) + (1 / 5 : ℚ) * (keywordMatches ceQuery ceChunkB.text : ℚ)) 1)
      (1 / 10) = ⟨ceChunkB, 1, 1 / 10⟩
    rw [hkB]
    have h1 : (1 - (1 / 10 : ℚ)) + (1 / 5 : ℚ) * ((2 : ℕ) : ℚ) = 13 / 10 := by
      push_cast
      norm_num
    rw [h1, min_eq_right (by norm_num : (1 : ℚ) ≤ 13 / 10)]
  have hhyb : hybridSearch [ceRowA, ceRowB] ceQuery 5 true =
      [⟨ceChunkA, 1, 1 / 10⟩, ⟨ceChunkB, 1, 1 / 10⟩] := by
    rw [hybridSearch_on_eq, hsem, List.map_cons, List.map_cons, List.map_nil, hbA, hbB]
    rw [List.insertionSort, List.insertionSort, List.insertionSort, List.orderedInsert,
      List.orderedInsert]
    rw [if_pos (show scoreDesc (⟨ceChunkA, 1, 1 / 10⟩ : SearchResult)
      ⟨ceChunkB, 1, 1 / 10⟩ from le_refl 1)]
    rfl
  refine ⟨hkA, hkB, ?_, ?_, ?_⟩
  · rw [hsem]
    norm_num
  · rw [hhyb]
    rfl
  · rw [hhyb]
    rfl

/-- Claim C6 (amended): with non-negative distances, enabling hybrid mode
never decreases any candidate's score; with equal base scores, at least as
many keyword matches give at least as large a boosted score, and strictly
more matches give a strictly larger score — unless the competitor's
boosted score is already capped at `1.0` (then both tie and the stable
sort preserves the original order, so the more-matching candidate can
remain ranked below); the output is always ordered by non-increasing
score. -/
theorem hybrid_monotonicity (raw : List RawRow) (query : List Char) (limit : Nat)
    (hd : ∀ r ∈ raw, 0 ≤ r.dist.getD 0) :
    (∀ c ∈ vectorDbSearch raw, c.score ≤ (boostResult query c).score) ∧
      (∀ c c' : SearchResult, c.score = c'.score →
        keywordMatches query c'.chunk.text ≤ keywordMatches query c.chunk.text →
        (boostResult query c').score ≤ (boostResult query c).score) ∧
      (∀ c c' : SearchResult, c.score = c'.score →
        keywordMatches query c'.chunk.text < keywordMatches query c.chunk.text →
        (boostResult query c').score < 1 →
        (boostResult query c').score < (boostResult query c).score) ∧
      (∀ i j : Fin (hybridSearch raw query limit true).length, i ≤ j →
        ((hybridSearch raw query limit true).get j).score ≤
          ((hybridSearch raw query limit true).get i).score) := by
  refine ⟨?_, ?_, ?_, fun i j hij => hybridSearch_get_le raw query limit i j hij⟩
  · intro c hc
    obtain ⟨r, hr, rfl⟩ := vectorDbSearch_mem raw c hc
    refine boostResult_ge query _ ?_
    have := hd r hr
    show (1 : ℚ) - r.dist.getD 0 ≤ 1
    linarith
  · intro c c' hb hk
    exact boostResult_mono query c c' hb hk
  · intro c c' hb hk hcap
    exact boostResult_strict query c c' hb hk hcap

/-- Claim C6 witness. -/
theorem hybrid_monotonicity_witness :
    (∀ c ∈ vectorDbSearch [⟨ceChunkA, some 1⟩], c.score ≤ (boostResult ceQuery c).score) ∧
      (∀ c c' : SearchResult, c.score = c'.score →
        keywordMatches ceQuery c'.chunk.text ≤ keywordMatches ceQuery c.chunk.text →
        (boostResult ceQuery c').score ≤ (boostResult ceQuery c).score) ∧
      (∀ c c' : SearchResult, c.score = c'.score →
        keywordMatches ceQuery c'.chunk.text < keywordMatches ceQuery c.chunk.text →
        (boostResult ceQuery c').score < 1 →
        (boostResult ceQuery c').score < (boostResult ceQuery c).score) ∧
      (∀ i j : Fin (hybridSearch [⟨ceChunkA, some 1⟩] ceQuery 4 true).length, i ≤ j →
        ((hybridSearch [⟨ceChunkA, some 1⟩] ceQuery 4 true).get j).score ≤
          ((hybridSearch [⟨ceChunkA, some 1⟩] ceQuery 4 true).get i).score) :=
  hybrid_monotonicity [⟨ceChunkA, some 1⟩] ceQuery 4
    (by intro r hr; rcases List.mem_singleton.1 hr with rfl; exact zero_le_one)

/-- Claim C7 counterexample: for the query "alpha alpha" the keyword
"alpha" is counted TWICE (the source does not deduplicate), so the result
score is `min(0.5 + 2·0.2, 1) = 0.9`, while the claimed distinct-keyword
rule gives `min(0.5 + 1·0.2, 1) = 0.7`. -/
theorem hybrid_scoring_counterexample :
    ∃ res ∈ hybridSearch [c7Row] ("alpha alpha".data) 10 true,
      res.chunk = c7Chunk ∧ res.score = 9 / 10 ∧
        distinctBoostScore ("alpha alpha".data) (1 - (1 / 2 : ℚ)) c7Chunk.text = 7 / 10 ∧
        (9 / 10 : ℚ) ≠ 7 / 10 := by
  have hk : keywordMatches ("alpha alpha".data) c7Chunk.text = 2 := by decide
  have hb : boostResult ("alpha alpha".data) ⟨c7Chunk, 1 - (1 / 2 : ℚ), 1 / 2⟩ =
      ⟨c7Chunk, 9 / 10, 1 / 2⟩ := by
    show SearchResult.mk c7Chunk
      (min ((1 - (1 / 2 : ℚ)) +
        (1 / 5 : ℚ) * (keywordMatches ("alpha alpha".data) c7Chunk.text : ℚ)) 1)
      (1 / 2) = ⟨c7Chunk, 9 / 10, 1 / 2⟩
    rw [hk]
    have h1 : (1 - (1 / 2 : ℚ)) + (1 / 5 : ℚ) * ((2 : ℕ) : ℚ) = 9 / 10 := by
      push_cast
      norm_num
    rw [h1, min_eq_left (by norm_num : (9 / 10 : ℚ) ≤ 1)]
  have hhyb : hybridSearch [c7Row] ("alpha alpha".data) 10 true =
      [⟨c7Chunk, 9 / 10, 1 / 2⟩] := by
    rw [hybridSearch_on_eq,
      show vectorDbSearch [c7Row] = [⟨c7Chunk, 1 - (1 / 2 : ℚ), 1 / 2⟩] from rfl,
      List.map_cons, List.map_nil, hb]
    rfl
  have hdk : (((keywordsOf ("alpha alpha".data)).dedup).countP
      fun kw => containsSub (c7Chunk.text.map Char.toLower) kw) = 1 := by decide
  refine ⟨⟨c7Chunk, 9 / 10, 1 / 2⟩, by rw [hhyb]; exact List.mem_singleton.2 rfl,
    rfl, rfl, ?_, by norm_num⟩
  rw [distinctBoostScore, hdk]
  have h1 : (1 - (1 / 2 : ℚ)) + (1 / 5 : ℚ) * ((1 : ℕ) : ℚ) = 7 / 10 := by
    push_cast
    norm_num
  rw [h1, min_eq_left (by norm_num : (7 / 10 : ℚ) ≤ 1)]

/-- Claim C7 (amended): `hybridSearch` returns at most `limit` results in
either mode; with hybrid enabled, each result is a semantic candidate
whose score is `min(baseScore + 0.2·k, 1.0)` where `k` counts the
matching query words WITH multiplicity (words > 3 characters, lowercased,
literal substring match — duplicates in the query each add 0.2); results
are ordered by non-increasing final score. -/
theorem hybrid_scoring (raw : List RawRow) (query : List Char) (limit : Nat) :
    (hybridSearch raw query limit true).length ≤ limit ∧
      (hybridSearch raw query limit false).length ≤ limit ∧
      (∀ res ∈ hybridSearch raw query limit true, ∃ c ∈ vectorDbSearch raw,
        res.chunk = c.chunk ∧
        res.score = min (c.score + (1 / 5 : ℚ) * keywordMatches query c.chunk.text) 1) ∧
      (∀ i j : Fin (hybridSearch raw query limit true).length, i ≤ j →
        ((hybridSearch raw query limit true).get j).score ≤
          ((hybridSearch raw query limit true).get i).score) := by
  refine ⟨hybridSearch_length_le raw query limit true,
    hybridSearch_length_le raw query limit false, ?_,
    fun i j hij => hybridSearch_get_le raw query limit i j hij⟩
  intro res hres
  obtain ⟨c, hc, rfl⟩ := hybridSearch_mem raw query limit res hres
  exact ⟨c, hc, boostResult_chunk query c, boostResult_score query c⟩

/-- Claim C7 witness. -/
theorem hybrid_scoring_witness :
    (hybridSearch [c7Row] ("alpha alpha".data) 3 true).length ≤ 3 ∧
      (hybridSearch [c7Row] ("alpha alpha".data) 3 false).length ≤ 3 ∧
      (∀ res ∈ hybridSearch [c7Row] ("alpha alpha".data) 3 true,
        ∃ c ∈ vectorDbSearch [c7Row], res.chunk = c.chunk ∧
        res.score = min (c.score +
          (1 / 5 : ℚ) * keywordMatches ("alpha alpha".data) c.chunk.text) 1) ∧
      (∀ i j : Fin (hybridSearch [c7Row] ("alpha alpha".data) 3 true).length, i ≤ j →
        ((hybridSearch [c7Row] ("alpha alpha".data) 3 true).get j).score ≤
          ((hybridSearch [c7Row] ("alpha alpha".data) 3 true).get i).score) :=
  hybrid_scoring [c7Row] ("alpha alpha".data) 3

end SemanticSearchMCP
